import Mathlib

/-!
# Verification of the TrappingSR3 optimizer (pysindy/optimizers/trapping_sr3.py)

This file gives a shallow embedding of the core of the `TrappingSR3`
optimizer and proves properties of it.  The embedding covers:

* the configuration guard `__post_init_guard` and the default seeds it
  installs (`postInitGuard`, `defaultM0`);
* the eigenvalue-clipping certificate update `_update_A` (`update_A`);
* the diagnostic objective `_objective` (`objectiveVal`);
* the quadratic-projection tensor builder `_build_PQ` (`buildPQ`),
  together with the library-classification helper `_build_lib_info`;
* the constraint builder `_make_constraints` (`makeConstraints`);
* the alternating-minimization driver loop `_reduce` (`iterateOnce`,
  `runLoop`, `reduceRun`).

Python floats are modelled as exact numbers (`ℚ` where decidability is
wanted, `ℝ` where square roots and eigenvalues appear); numpy arrays are
modelled as functions from indices.  External collaborators (the CVXPY
solve, `numpy.linalg.eig`, the numpy random stream) are either abstracted
as parameters of the embedding or modelled at their documented interface.
-/

namespace TrappingSR3

/-! ## Configuration and `__post_init_guard`

The fields below are exactly the attributes that `__post_init_guard`
reads or writes.  `eta`, `alpha_m`, `alpha_A`, `alpha`, `beta`, `m0`,
`A0` can be `None` in Python, hence are `Option`-valued here.  Python
floats are modelled as rationals. -/

structure TrapConfig where
  thresholder : String
  eta : Option ℚ
  alpha_m : Option ℚ
  alpha_A : Option ℚ
  alpha : Option ℚ
  beta : Option ℚ
  gamma : ℚ
  tol : ℚ
  tol_m : ℚ
  eps_solver : ℚ
  threshold : ℚ
  inequality_constraints : Bool
  n_tgts : ℕ
  m0 : Option (ℕ → ℚ)
  A0 : Option (ℕ → ℕ → ℚ)

/-- The `ValueError`s that `__post_init_guard` can raise, in source order. -/
inductive ConfigError where
  | badRegularizer
  | badEta
  | badAlphaM
  | badAlphaA
  | badGamma
  | badTol
  | badIneq
  deriving DecidableEq, Repr

/-- The regularizers accepted by the guard:
`("l1", "l2", "weighted_l1", "weighted_l2")`. -/
def validThresholders : List String :=
  ["l1", "l2", "weighted_l1", "weighted_l2"]

/-- ASCII lower-casing of one character, modelling Python `str.lower`
on the identifiers involved here. -/
def lowerChar (ch : Char) : Char :=
  if 'A' ≤ ch ∧ ch ≤ 'Z' then Char.ofNat (ch.toNat + 32) else ch

/-- `str.lower()` on a string (ASCII). -/
def strLower (s : String) : String := ⟨s.data.map lowerChar⟩

/-- Modelled external collaborator (numpy seeded RNG): one step of a
linear congruential generator; a deterministic stand-in for the
Mersenne-twister stream, matching the interface `np.random.seed(s)`
followed by `np.random.rand`: a deterministic sequence of values in
`[0, 1)` that depends only on the seed. -/
def lcg (s : ℕ) : ℕ := (1103515245 * s + 12345) % 2 ^ 31

/-- The `i`-th raw state of the seeded stream. -/
def lcgStream (seed : ℕ) : ℕ → ℕ
  | 0 => lcg seed
  | i + 1 => lcg (lcgStream seed i)

/-- `np.random.rand()` draw number `i` after `np.random.seed(seed)`:
a rational in `[0, 1)`. -/
def rand01 (seed i : ℕ) : ℚ := (lcgStream seed i : ℚ) / 2 ^ 31

/-- Default `m0` from the guard: `np.random.seed(1)` then
`(np.random.rand(n_tgts) - np.ones(n_tgts)) * 2` (entry `i`, defined for
`i < n_tgts`; the model is total in `i`). -/
def defaultM0 (i : ℕ) : ℚ := (rand01 1 i - 1) * 2

/-- Default `A0` from the guard: `np.diag(gamma * np.ones(n_tgts))`. -/
def defaultA0 (gamma : ℚ) (n : ℕ) (i j : ℕ) : ℚ :=
  if i = j ∧ i < n then gamma else 0

/-- Shallow embedding of `TrappingSR3.__post_init_guard` (source lines
280–332).  Mutations of `self` become a returned updated config; `raise
ValueError` becomes `Except.error`.  The checks appear in source order. -/
def postInitGuard (c : TrapConfig) : Except ConfigError TrapConfig :=
  if ¬ validThresholders.contains (strLower c.thresholder) then
    .error .badRegularizer
  else
    -- `if self.eta is None: ... else: ...` defaulting block
    let c :=
      match c.eta with
      | none =>
          { c with eta := some ((10 : ℚ) ^ 20), alpha_m := some ((10 : ℚ) ^ 18),
                   alpha_A := some ((10 : ℚ) ^ 20) }
      | some e =>
          { c with alpha_m := some (c.alpha_m.getD (e * (1 / 100))),
                   alpha_A := some (c.alpha_A.getD e) }
    if c.eta.getD 0 ≤ 0 then .error .badEta
    else
      -- `if self.alpha is None: self.alpha = 1e20`, same for beta (the
      -- accompanying warnings are non-fatal); written with `getD`, which
      -- leaves an already-set value unchanged exactly like the source
      let c := { c with alpha := some (c.alpha.getD ((10 : ℚ) ^ 20)),
                        beta := some (c.beta.getD ((10 : ℚ) ^ 20)) }
      if c.alpha_m.getD 0 < 0 ∨ c.eta.getD 0 < c.alpha_m.getD 0 then .error .badAlphaM
      else if c.alpha_A.getD 0 < 0 ∨ c.eta.getD 0 < c.alpha_A.getD 0 then .error .badAlphaA
      else if 0 ≤ c.gamma then .error .badGamma
      else if c.tol ≤ 0 ∨ c.tol_m ≤ 0 ∨ c.eps_solver ≤ 0 then .error .badTol
      else if c.inequality_constraints ∧ c.threshold = 0 then .error .badIneq
      else
        -- `if self.A0 is None: ...` and `if self.m0 is None: ...`
        let c := { c with A0 := some (c.A0.getD (defaultA0 c.gamma c.n_tgts)),
                          m0 := some (c.m0.getD defaultM0) }
        .ok c

/-- `set_params` re-runs the guard after the (external, sklearn-side)
attribute update; the updated config is the argument here. -/
def set_params (c : TrapConfig) : Except ConfigError TrapConfig :=
  postInitGuard c

/-- Whether the guard accepts a configuration without raising. -/
def guardOk (c : TrapConfig) : Bool :=
  match postInitGuard c with
  | .ok _ => true
  | .error _ => false

/-- A concrete valid configuration, used to instantiate theorems with
hypotheses. -/
def exCfg : TrapConfig :=
  { thresholder := "l1", eta := some 1, alpha_m := some (1 / 2), alpha_A := some 1,
    alpha := some 1, beta := some 1, gamma := -1, tol := 1, tol_m := 1,
    eps_solver := 1, threshold := 0, inequality_constraints := false,
    n_tgts := 2, m0 := none, A0 := none }

/-- What the guard turns `exCfg` into: the defaults for `A0` and `m0`
get installed, everything else stays. -/
def exCfgOk : TrapConfig :=
  { exCfg with alpha_m := some (1 / 2), alpha_A := some 1, alpha := some 1,
               beta := some 1, A0 := some (defaultA0 (-1) 2), m0 := some defaultM0 }

/-! ## The certificate update `_update_A`

`_update_A(A_old, PW)` eigendecomposes both inputs via `np.linalg.eigh`
(an external collaborator: for a real symmetric input it yields real
eigenvalues and an invertible — orthogonal — eigenvector matrix), clips
the eigenvalues of `A_old` at `gamma` and rotates back with the
eigenvector matrix of `PW` and `np.linalg.inv`.  The embedding takes
the decompositions as arguments. -/

/-- The clipping loop of `_update_A`: `A = np.diag(eigvals)`, then
`A[i, i] = gamma` whenever `eigvals[i] > gamma`. -/
noncomputable def clipEig {r : ℕ} (gamma : ℝ) (lam : Fin r → ℝ) : Fin r → ℝ :=
  fun i => if gamma < lam i then gamma else lam i

/-- Shallow embedding of `_update_A` (source lines 453–462):
`eigvecsPW @ A @ np.linalg.inv(eigvecsPW)` where `A` is the clipped
diagonal.  `eigvalsA`/`eigvecsA` are the `eigh` outputs for `A_old`
(`eigvecsA` is computed but never used by the source), `eigvecsPW` the
eigenvector matrix of `PW`. -/
noncomputable def update_A {r : ℕ} (gamma : ℝ) (eigvalsA : Fin r → ℝ)
    (eigvecsA eigvecsPW : Matrix (Fin r) (Fin r) ℝ) : Matrix (Fin r) (Fin r) ℝ :=
  eigvecsPW * Matrix.diagonal (clipEig gamma eigvalsA) * eigvecsPW⁻¹

/-- `mu` is an eigenvalue of `M` (witnessed by a nonzero eigenvector). -/
def hasEigval {r : ℕ} (M : Matrix (Fin r) (Fin r) ℝ) (mu : ℝ) : Prop :=
  ∃ v, v ≠ 0 ∧ M.mulVec v = mu • v

/-! ## The diagnostic objective `_objective`

Arrays are functions of natural-number indices; `n` samples, `p`
library features, `r` targets.  `coef_sparse` has shape `(p, r)`,
`x` shape `(n, p)`, `y` shape `(n, r)`, `A`, `PW`, `mod_matrix` shape
`(r, r)`, and `PQ_` shape `(r, r, r, r, p)`. -/

/-- `Qijk = np.einsum("ya,abcde,ed", mod_matrix, PQ_, coef_sparse)`. -/
noncomputable def einsumQijk (r p : ℕ) (mod : ℕ → ℕ → ℝ)
    (PQ : ℕ → ℕ → ℕ → ℕ → ℕ → ℝ) (coef : ℕ → ℕ → ℝ) (i b c : ℕ) : ℝ :=
  ∑ a ∈ Finset.range r, ∑ d ∈ Finset.range r, ∑ e ∈ Finset.range p,
    mod i a * PQ a b c d e * coef e d

/-- The cubic-symmetry penalty computed by `_objective`:
`0.5 * sum((Qijk + Qijk.transpose([1,2,0]) + Qijk.transpose([2,0,1]))**2) / beta`.
(`np.transpose(Q, [1,2,0])[i,j,k] = Q[k,i,j]` and
`np.transpose(Q, [2,0,1])[i,j,k] = Q[j,k,i]`.) -/
noncomputable def cubicEnsLoss (r : ℕ) (beta : ℝ) (Q : ℕ → ℕ → ℕ → ℝ) : ℝ :=
  (1 / 2) * (∑ i ∈ Finset.range r, ∑ j ∈ Finset.range r, ∑ k ∈ Finset.range r,
    (Q i j k + Q k i j + Q j k i) ^ 2) / beta

/-- The nonlinear-energy penalty `0.5 * np.sum(Qijk**2) / alpha`. -/
noncomputable def nonlinEnsLoss (r : ℕ) (alpha : ℝ) (Q : ℕ → ℕ → ℕ → ℝ) : ℝ :=
  (1 / 2) * (∑ i ∈ Finset.range r, ∑ b ∈ Finset.range r, ∑ c ∈ Finset.range r,
    (Q i b c) ^ 2) / alpha

/-- The data-fit loss `0.5 * np.sum((y - np.dot(x, coef_sparse))**2)`. -/
noncomputable def sindyLoss (n p r : ℕ) (x y coef : ℕ → ℕ → ℝ) : ℝ :=
  (1 / 2) * ∑ s ∈ Finset.range n, ∑ i ∈ Finset.range r,
    (y s i - ∑ f ∈ Finset.range p, x s f * coef f i) ^ 2

/-- The relaxation loss `0.5 * np.sum((A - PW)**2) / eta`. -/
noncomputable def relaxLoss (r : ℕ) (eta : ℝ) (A PW : ℕ → ℕ → ℝ) : ℝ :=
  (1 / 2) * (∑ i ∈ Finset.range r, ∑ j ∈ Finset.range r, (A i j - PW i j) ^ 2) / eta

/-- The sparsity penalty `threshold * np.sum(np.abs(coef_sparse))`. -/
noncomputable def l1Loss (p r : ℕ) (threshold : ℝ) (coef : ℕ → ℕ → ℝ) : ℝ :=
  threshold * ∑ f ∈ Finset.range p, ∑ i ∈ Finset.range r, |coef f i|

/-- Shallow embedding of `_objective` (source lines 478–502).  The
source computes `cubic_ens_loss` but never adds it to the accumulated
objective; in local mode it adds
`obj += nonlin_ens_loss + nonlin_ens_loss` — the nonlinear-energy
penalty twice. -/
noncomputable def objectiveVal (n p r : ℕ) (isLocal : Bool)
    (threshold eta alpha beta : ℝ) (mod : ℕ → ℕ → ℝ)
    (PQ : ℕ → ℕ → ℕ → ℕ → ℕ → ℝ) (x y coef A PW : ℕ → ℕ → ℝ) : ℝ :=
  let Qijk := einsumQijk r p mod PQ coef
  let nonlin := nonlinEnsLoss r alpha Qijk
  let obj := sindyLoss n p r x y coef + relaxLoss r eta A PW + l1Loss p r threshold coef
  if isLocal then obj + (nonlin + nonlin) else obj

/-- The objective as the specification states it: data-fit plus
relaxation plus sparsity penalty, plus — in local mode — the
nonlinear-energy penalty and the cubic-symmetry penalty, each exactly
once.  (Stated from the spec's words, for comparison with
`objectiveVal`.) -/
noncomputable def claimObjective (n p r : ℕ) (isLocal : Bool)
    (threshold eta alpha beta : ℝ) (mod : ℕ → ℕ → ℝ)
    (PQ : ℕ → ℕ → ℕ → ℕ → ℕ → ℝ) (x y coef A PW : ℕ → ℕ → ℝ) : ℝ :=
  let Qijk := einsumQijk r p mod PQ coef
  let obj := sindyLoss n p r x y coef + relaxLoss r eta A PW + l1Loss p r threshold coef
  if isLocal then obj + (nonlinEnsLoss r alpha Qijk + cubicEnsLoss r beta Qijk) else obj

/-- A concrete 1-target, 2-feature instance for evaluating the
objective: identity 1×1 modulation matrix. -/
noncomputable def exMod (i a : ℕ) : ℝ := if i = 0 ∧ a = 0 then 1 else 0

/-- Concrete quadratic-projection tensor for `r = 1`: the pure term
`x0²` sits at library column 1. -/
noncomputable def exPQ (a b c d e : ℕ) : ℝ :=
  if a = 0 ∧ b = 0 ∧ c = 0 ∧ d = 0 ∧ e = 1 then 1 else 0

/-- Concrete coefficients: weight 1 on the `x0²` column. -/
noncomputable def exCoef (e d : ℕ) : ℝ := if e = 1 ∧ d = 0 then 1 else 0

/-- All-zero 2-D array. -/
noncomputable def zeroArr2 (i j : ℕ) : ℝ := 0

/-! ## Library classification (`_build_lib_info`) and `_build_PQ`

A term list (`polyterms`) is the enumerated output of
`PolynomialLibrary(2).powers_`: pairs of a term index and the exponent
vector of the term.  Python dicts built by comprehensions are modelled
as association lists with in-place update (later duplicate keys
overwrite the value but keep the original position, as in CPython). -/

/-- Python `dict` update `d[k] = v`: overwrite in place if the key is
present, else append. -/
def dictInsert {α β : Type} [DecidableEq α] (d : List (α × β)) (p : α × β) :
    List (α × β) :=
  if d.any (fun q => decide (q.1 = p.1)) then
    d.map (fun q => if q.1 = p.1 then (p.1, p.2) else q)
  else d ++ [p]

/-- The dict built by a comprehension over `l` (left to right). -/
def dictOfList {α β : Type} [DecidableEq α] (l : List (α × β)) : List (α × β) :=
  l.foldl dictInsert []

/-- Dict lookup `d[k]` (`none` models a `KeyError`). -/
def dictLookup {α β : Type} [DecidableEq α] (d : List (α × β)) (k : α) : Option β :=
  (d.find? (fun q => decide (q.1 = k))).map Prod.snd

/-- `np.max` of an exponent vector. -/
def maxExp (l : List ℕ) : ℕ := l.foldr max 0

/-- `np.sum` of an exponent vector. -/
def sumExp (l : List ℕ) : ℕ := l.sum

/-- `np.argmax`: index of the first occurrence of the maximum. -/
def argmaxL (l : List ℕ) : ℕ := l.indexOf (maxExp l)

/-- `frozenset(np.argwhere(exps == 1).flatten())`. -/
def argwhereOne (l : List ℕ) : Finset ℕ :=
  ((List.range l.length).filter (fun a => decide (l.getD a 0 = 1))).toFinset

/-- The entries of `_build_lib_info`'s `pure_terms` comprehension:
`{np.argmax(exps): t_ind for t_ind, exps in polyterms if max(exps) == 2}`. -/
def pureEntriesOf (polyterms : List (ℕ × List ℕ)) : List (ℕ × ℕ) :=
  (polyterms.filter (fun t => decide (maxExp t.2 = 2))).map
    (fun t => (argmaxL t.2, t.1))

/-- The entries of the `mixed_terms` comprehension:
`{frozenset(...): t_ind for t_ind, exps in polyterms if max(exps) == 1 and sum(exps) == 2}`. -/
def mixedEntriesOf (polyterms : List (ℕ × List ℕ)) : List (Finset ℕ × ℕ) :=
  (polyterms.filter (fun t => decide (maxExp t.2 = 1 ∧ sumExp t.2 = 2))).map
    (fun t => (argwhereOne t.2, t.1))

/-- The entries of the `linear_terms` comprehension
(`sum(exps) == 1`). -/
def linearEntriesOf (polyterms : List (ℕ × List ℕ)) : List (ℕ × ℕ) :=
  (polyterms.filter (fun t => decide (sumExp t.2 = 1))).map
    (fun t => (argmaxL t.2, t.1))

/-- Shallow embedding of `_build_lib_info` (source lines 841–872):
returns `(n_targets, n_features, linear_terms, pure_terms,
mixed_terms)`; `none` models the `ValueError` on an empty library. -/
def build_lib_info (polyterms : List (ℕ × List ℕ)) :
    Option (ℕ × ℕ × List (ℕ × ℕ) × List (ℕ × ℕ) × List (Finset ℕ × ℕ)) :=
  match polyterms with
  | [] => none
  | t :: _ =>
      some (t.2.length, polyterms.length, dictOfList (linearEntriesOf polyterms),
            dictOfList (pureEntriesOf polyterms), dictOfList (mixedEntriesOf polyterms))

/-- `pure_terms[j]` for the dict built from `polyterms`. -/
def pureLookup (polyterms : List (ℕ × List ℕ)) (j : ℕ) : Option ℕ :=
  dictLookup (dictOfList (pureEntriesOf polyterms)) j

/-- `mixed_terms[s]` for the dict built from `polyterms`. -/
def mixedLookup (polyterms : List (ℕ × List ℕ)) (s : Finset ℕ) : Option ℕ :=
  dictLookup (dictOfList (mixedEntriesOf polyterms)) s

/-- A 5th-order tensor of rationals, indexed `(i, j, k, l, f)`. -/
abbrev Tensor5Q := ℕ → ℕ → ℕ → ℕ → ℕ → ℚ

/-- One numpy fancy-indexing write
`PQ[tgts, j, k, tgts, f] = w` (with `tgts = range(n_targets)` paired
diagonally on axes 0 and 3). -/
def writeDiag (r j k f : ℕ) (w : ℚ) (T : Tensor5Q) : Tensor5Q :=
  fun i j' k' l f' =>
    if j' = j ∧ k' = k ∧ l = i ∧ f' = f ∧ i < r then w else T i j' k' l f'

/-- `itertools.product(range(r), range(r))` in iteration order. -/
def pairList (r : ℕ) : List (ℕ × ℕ) :=
  (List.range r).bind (fun j => (List.range r).map (fun k => (j, k)))

/-- The body of `_build_PQ`'s loop for one ordered pair `(j, k)`: write
weight `1.0` at the pure column when `j == k`, weight `0.5` at the
mixed column (keyed by the unordered pair) when `j != k`; a failed dict
lookup (`KeyError`) yields `none`. -/
def pqStep (r : ℕ) (pure : ℕ → Option ℕ) (mixed : Finset ℕ → Option ℕ)
    (T : Tensor5Q) (jk : ℕ × ℕ) : Option Tensor5Q :=
  if jk.1 = jk.2 then (pure jk.1).map (fun f => writeDiag r jk.1 jk.2 f 1 T)
  else (mixed {jk.1, jk.2}).map (fun f => writeDiag r jk.1 jk.2 f (1 / 2) T)

/-- Shallow embedding of `_build_PQ` (source lines 425–433): start from
`np.zeros(...)` and run the write loop over
`product(*repeat(range(n_targets), 2))`. -/
def buildPQ (r : ℕ) (pure : ℕ → Option ℕ) (mixed : Finset ℕ → Option ℕ) :
    Option Tensor5Q :=
  (pairList r).foldlM (pqStep r pure mixed) (fun _ _ _ _ _ => 0)

/-- The closed form that `buildPQ` is proved to produce. -/
def PQclosed (r : ℕ) (pure : ℕ → Option ℕ) (mixed : Finset ℕ → Option ℕ) :
    Tensor5Q :=
  fun i j k l f =>
    if j < r ∧ k < r ∧ l = i ∧ i < r then
      if j = k then (if pure j = some f then 1 else 0)
      else (if mixed {j, k} = some f then 1 / 2 else 0)
    else 0

/-- Well-formedness of a degree-2 term list for `r` variables, as used
by `_build_PQ`: every variable has a pure quadratic column, every
unordered pair a mixed column, and pure and mixed columns are distinct. -/
def WellFormedQuadLib (r : ℕ) (polyterms : List (ℕ × List ℕ)) : Prop :=
  (∀ j < r, (pureLookup polyterms j).isSome = true) ∧
  (∀ j < r, ∀ k < r, j ≠ k → (mixedLookup polyterms {j, k}).isSome = true) ∧
  (∀ j < r, ∀ a < r, ∀ b < r, a ≠ b →
     pureLookup polyterms j ≠ mixedLookup polyterms {a, b})

/-- The degree-2 term list for two variables (no bias):
`x0, x1, x0², x0·x1, x1²` in `PolynomialLibrary` order. -/
def polyterms2 : List (ℕ × List ℕ) :=
  [(0, [1, 0]), (1, [0, 1]), (2, [2, 0]), (3, [1, 1]), (4, [0, 2])]

/-! ## The term library and `_make_constraints`

`PolynomialLibrary` is an external collaborator.  Modelled from the
spec: "the feature-enumeration collaborator: given a variable count,
returns the ordered term list (index, exponent-vector) for a degree-2
polynomial basis with a configurable inclusion of constant terms" — in
the standard order: optional constant, the linear terms, then the
quadratic terms as combinations with replacement. -/

/-- Exponent vector of the monomial `x_j · x_k` over `r` variables. -/
def expVec (r j k : ℕ) : List ℕ :=
  (List.range r).map (fun a => (if a = j then 1 else 0) + (if a = k then 1 else 0))

/-- Exponent vector of the linear monomial `x_j` over `r` variables. -/
def linVec (r j : ℕ) : List ℕ :=
  (List.range r).map (fun a => if a = j then 1 else 0)

/-- The quadratic terms `x_j · x_k` for `j ≤ k`, in iteration order. -/
def quadTerms (r : ℕ) : List (List ℕ) :=
  (List.range r).flatMap (fun j => (List.range' j (r - j)).map (fun k => expVec r j k))

/-- Modelled from the spec: the ordered exponent-vector list of
`PolynomialLibrary(2, include_bias=bias).powers_` for `r` variables. -/
def libTerms (r : ℕ) (bias : Bool) : List (List ℕ) :=
  (if bias then [List.replicate r 0] else []) ++
    (List.range r).map (linVec r) ++ quadTerms r

/-- `[(t_ind, exps) for t_ind, exps in enumerate(lib.powers_)]`. -/
def polytermsOf (r : ℕ) (bias : Bool) : List (ℕ × List ℕ) :=
  (libTerms r bias).enum

/-- A constraint row as a function `(term index, target index) ↦ weight`. -/
abbrev ConstraintRow := ℕ → ℕ → ℚ

/-- `Option`-valued `map` (a failing element, i.e. a `KeyError` in the
source, fails the whole loop). -/
def mapMO {α β : Type} (f : α → Option β) : List α → Option (List β)
  | [] => some []
  | x :: xs => do
      let y ← f x
      let ys ← mapMO f xs
      pure (y :: ys)

/-- Shallow embedding of `_pure_constraints` (source lines 799–804):
allocate `n_tgts` zero rows, then fill row `ci` with a single 1 at
`(term_ind, tgt_ind)` for `(ci, (tgt_ind, term_ind))` in
`zip(range(n_tgts), pure_terms.items())` (zip truncates; unfilled rows
stay zero). -/
def pureConstraints (n_tgts : ℕ) (pureItems : List (ℕ × ℕ)) : List ConstraintRow :=
  (List.range n_tgts).map (fun ci =>
    match pureItems.get? ci with
    | some tp => fun t g => if t = tp.2 ∧ g = tp.1 then 1 else 0
    | none => fun _ _ => 0)

/-- The first element of a two-element frozenset of small naturals in
CPython iteration order (the minimum). -/
def fsetFst (s : Finset ℕ) : ℕ := s.min.untop' 0

/-- The second element (the maximum). -/
def fsetSnd (s : Finset ℕ) : ℕ := s.max.unbot' 0

/-- Row of `constraint_mat_1` in `_antisymm_double_constraint` for one
mixed item `((tgt_i, tgt_j), mix_term)`: 1s at `(mix_term, tgt_i)` and
`(pure_terms[tgt_i], tgt_j)`. -/
def doubleRow1 (pureD : List (ℕ × ℕ)) (sm : Finset ℕ × ℕ) : Option ConstraintRow := do
  let i := fsetFst sm.1
  let j := fsetSnd sm.1
  let p1 ← dictLookup pureD i
  pure (fun t g => if (t = sm.2 ∧ g = i) ∨ (t = p1 ∧ g = j) then (1 : ℚ) else 0)

/-- Row of `constraint_mat_2`: 1s at `(mix_term, tgt_j)` and
`(pure_terms[tgt_j], tgt_i)`. -/
def doubleRow2 (pureD : List (ℕ × ℕ)) (sm : Finset ℕ × ℕ) : Option ConstraintRow := do
  let i := fsetFst sm.1
  let j := fsetSnd sm.1
  let p2 ← dictLookup pureD j
  pure (fun t g => if (t = sm.2 ∧ g = j) ∨ (t = p2 ∧ g = i) then (1 : ℚ) else 0)

/-- Shallow embedding of `_antisymm_double_constraint` (source lines
807–822): for each mixed item one `constraint_mat_1` row and one
`constraint_mat_2` row; the two blocks are concatenated. -/
def doubleConstraints (pureD : List (ℕ × ℕ))
    (mixedItems : List (Finset ℕ × ℕ)) : Option (List ConstraintRow) := do
  let mat1 ← mapMO (doubleRow1 pureD) mixedItems
  let mat2 ← mapMO (doubleRow2 pureD) mixedItems
  pure (mat1 ++ mat2)

/-- `itertools.combinations(range(r), 3)` in lexicographic order. -/
def triples (r : ℕ) : List (ℕ × ℕ × ℕ) :=
  (List.range r).flatMap (fun i =>
    (List.range' (i + 1) (r - (i + 1))).flatMap (fun j =>
      (List.range' (j + 1) (r - (j + 1))).map (fun k => (i, j, k))))

/-- Shallow embedding of `_antisymm_triple_constraints` (source lines
825–838): one row per combination `(i, j, k)` with 1s at
`(mixed{j,k}, i)`, `(mixed{k,i}, j)`, `(mixed{i,j}, k)`.  The numpy
allocation has `comb(r, 3)` rows, which equals the number of
combinations (proved in `length_triples`). -/
def tripleRow (mixedD : List (Finset ℕ × ℕ)) (ijk : ℕ × ℕ × ℕ) :
    Option ConstraintRow := do
  let a ← dictLookup mixedD {ijk.2.1, ijk.2.2}
  let b ← dictLookup mixedD {ijk.2.2, ijk.1}
  let c ← dictLookup mixedD {ijk.1, ijk.2.1}
  pure (fun t g =>
    if (t = a ∧ g = ijk.1) ∨ (t = b ∧ g = ijk.2.1) ∨ (t = c ∧ g = ijk.2.2)
    then (1 : ℚ) else 0)

def tripleConstraints (r : ℕ) (mixedD : List (Finset ℕ × ℕ)) :
    Option (List ConstraintRow) :=
  mapMO (tripleRow mixedD) (triples r)

/-- Shallow embedding of `_make_constraints` (source lines 757–796):
rebuild the pure/mixed dicts from the library, stack the three
constraint families with `np.vstack`, and return
`(np.zeros(n_rows), constraint_mat)`. -/
def makeConstraints (r : ℕ) (bias : Bool) :
    Option (List ℚ × List ConstraintRow) := do
  let db ← doubleConstraints (dictOfList (pureEntriesOf (polytermsOf r bias)))
             (dictOfList (mixedEntriesOf (polytermsOf r bias)))
  let tb ← tripleConstraints r (dictOfList (mixedEntriesOf (polytermsOf r bias)))
  pure (List.replicate
          (pureConstraints r (dictOfList (pureEntriesOf (polytermsOf r bias)))
            ++ db ++ tb).length 0,
        pureConstraints r (dictOfList (pureEntriesOf (polytermsOf r bias)))
          ++ db ++ tb)

/-! ## The alternating-minimization driver `_reduce`

Arrays are real-valued functions of indices: a coefficient matrix
`coef_sparse` has shape `(p, r)` (features × targets), history entries
of `history_` are the transposed `(r, p)` matrices, `m` is a length-`r`
vector.  The sub-solvers that the loop body calls — the CVXPY /
pseudo-inverse coefficient update, `_solve_m_relax_and_split` (whose
internals are verified separately via `update_A`), `np.linalg.eig` and
`_objective` — enter as parameters; the loop's own arithmetic
(`mPM`, `P_A`, `Pmatrix`/`PW` contractions) is embedded concretely. -/

abbrev VecR := ℕ → ℝ
abbrev MatR := ℕ → ℕ → ℝ
abbrev T4R := ℕ → ℕ → ℕ → ℕ → ℝ
abbrev T5R := ℕ → ℕ → ℕ → ℕ → ℕ → ℝ

/-- `mPM = np.tensordot(self.PM_, trap_ctr, axes=([2], [0]))`. -/
noncomputable def mPMof (r : ℕ) (PM : T5R) (m : VecR) : T4R :=
  fun a b c d => ∑ e ∈ Finset.range r, PM a b e c d * m e

/-- `P_A = np.einsum("ya,abcd,bz->yzcd", rt_mod_mat, PL_ + mPM, rt_inv_mod_mat)`
followed by the symmetrization `(P_A + P_A.transpose([1,0,2,3])) / 2`. -/
noncomputable def P_Aof (r : ℕ) (rt_mod rt_inv : MatR) (PL mPM : T4R) : T4R :=
  let raw := fun y z c d => ∑ a ∈ Finset.range r, ∑ b ∈ Finset.range r,
    rt_mod y a * (PL a b c d + mPM a b c d) * rt_inv b z
  fun y z c d => (raw y z c d + raw z y c d) / 2

/-- `PW = np.tensordot(P_A, coef_sparse, axes=([3, 2], [0, 1]))`. -/
noncomputable def PWof (r p : ℕ) (P_A : T4R) (coef : MatR) : MatR :=
  fun y z => ∑ d ∈ Finset.range p, ∑ c ∈ Finset.range r, P_A y z c d * coef d c

/-- The fixed data and external sub-solvers that `_reduce` works with. -/
structure DriverParams (r p : ℕ) where
  tol : ℝ
  tol_m : ℝ
  maxIter : ℕ
  PL_ : T4R
  PM_ : T5R
  rt_mod : MatR
  rt_inv : MatR
  /-- `_update_coef_sparse_rs` / `_update_coef_nonsparse_rs`
  (external CVXPY or pseudo-inverse solve), taking the current trap
  center, `A`, the previous coefficients and the current `P_A`;
  `none` models solver infeasibility. -/
  updateCoef : VecR → MatR → MatR → T4R → Option MatR
  /-- `_solve_m_relax_and_split(trap_ctr, A, coef_sparse)`, returning
  the new trap center (optional, as the driver guards it against
  `None`) and the new `A`. -/
  solveM : VecR → MatR → MatR → Option VecR × MatR
  /-- `np.sort(np.linalg.eig(PW)[0])` (external). -/
  eigSorted : MatR → List ℝ
  /-- `self._objective(x, y, coef_sparse, A, PW, k)` evaluated on the
  fit data (embedded separately as `objectiveVal`). -/
  objVal : MatR → MatR → MatR → ℕ → ℝ

/-- The driver's mutable state during `_reduce`: the history buffers
and the current iterates. -/
structure RState (r p : ℕ) where
  histCoef : List MatR
  histM : List VecR
  histA : List MatR
  histP : List T4R
  histPW : List MatR
  histPWeigs : List (List ℝ)
  objHist : List ℝ
  coef : MatR
  trapCtr : VecR
  A : MatR
  trapPrevCtr : VecR

/-- Why the loop stopped. -/
inductive ExitKind where
  | converged
  | infeasCoef
  | infeasM
  | maxIterHit
  deriving DecidableEq, Repr

/-- `_convergence_criterion` (source lines 464–472):
`sqrt(sum((history_[-1] - history_[-2])**2))`, with the zero matrix in
place of `history_[-2]` when only one iterate is recorded. -/
noncomputable def convergenceCriterion (r p : ℕ) (hist : List MatR) : ℝ :=
  let this := hist.getLastD (fun _ _ => 0)
  let last := if 1 < hist.length then hist.dropLast.getLastD (fun _ _ => 0)
              else (fun _ _ => 0)
  Real.sqrt (∑ i ∈ Finset.range r, ∑ j ∈ Finset.range p, (this i j - last i j) ^ 2)

/-- `_m_convergence_criterion` (source lines 474–476):
`sum(abs(m_history_[-2] - m_history_[-1]))`. -/
noncomputable def mConvergenceCriterion (r : ℕ) (hist : List VecR) : ℝ :=
  ∑ i ∈ Finset.range r,
    |hist.dropLast.getLastD (fun _ => 0) i - hist.getLastD (fun _ => 0) i|

/-- The `P_A` computed at the top of the loop body from the current
trap center. -/
noncomputable def PAcur {r p : ℕ} (prm : DriverParams r p) (st : RState r p) : T4R :=
  P_Aof r prm.rt_mod prm.rt_inv prm.PL_ (mPMof r prm.PM_ st.trapCtr)

/-- The state after one fully completed loop iteration that produced
coefficients `c`, trap center `mNew` and certificate `Anew`: all seven
buffers gain exactly one entry and the iterates are replaced. -/
noncomputable def postIter {r p : ℕ} (prm : DriverParams r p) (k : ℕ)
    (st : RState r p) (c : MatR) (mNew : VecR) (Anew : MatR) : RState r p :=
  { histCoef := st.histCoef ++ [fun i j => c j i]
    histM := st.histM ++ [mNew]
    histA := st.histA ++ [Anew]
    histP := st.histP ++ [PAcur prm st]
    histPW := st.histPW ++ [PWof r p (PAcur prm st) c]
    histPWeigs := st.histPWeigs ++ [prm.eigSorted (PWof r p (PAcur prm st) c)]
    objHist := st.objHist ++ [prm.objVal c Anew (PWof r p (PAcur prm st) c) k]
    coef := c
    trapCtr := mNew
    A := Anew
    trapPrevCtr := st.trapPrevCtr }

/-- One iteration of the loop body of `_reduce` (source lines 700–746):
append `P_A` to `p_history_`, run the coefficient update (`break` with
the previous coefficients on `None`), run `_solve_m_relax_and_split`
(`break` with the pre-loop `trap_prev_ctr` on `None`), append to all
histories, record the objective, and `break` when both convergence
criteria hold.  `.inl` is "continue", `.inr` an exit. -/
noncomputable def iterateOnce {r p : ℕ} (prm : DriverParams r p) (k : ℕ)
    (st : RState r p) : RState r p ⊕ (RState r p × ExitKind) :=
  match prm.updateCoef st.trapCtr st.A st.coef (PAcur prm st) with
  | none => .inr ({ st with histP := st.histP ++ [PAcur prm st], coef := st.coef },
                  .infeasCoef)
  | some c =>
    match prm.solveM st.trapCtr st.A c with
    | (none, Anew) =>
        .inr ({ st with
                  histP := st.histP ++ [PAcur prm st]
                  coef := c
                  A := Anew
                  trapCtr := st.trapPrevCtr }, .infeasM)
    | (some mNew, Anew) =>
        if mConvergenceCriterion r (postIter prm k st c mNew Anew).histM < prm.tol_m ∧
           convergenceCriterion r p (postIter prm k st c mNew Anew).histCoef < prm.tol then
          .inr (postIter prm k st c mNew Anew, .converged)
        else .inl (postIter prm k st c mNew Anew)

/-- The `for k in range(self.max_iter)` loop with its `for`–`else`
clause: falling off the end of the range is `maxIterHit` (which is the
only exit that triggers the `ConvergenceWarning`). -/
noncomputable def runLoop {r p : ℕ} (prm : DriverParams r p) :
    ℕ → ℕ → RState r p → RState r p × ExitKind
  | 0, _, st => (st, .maxIterHit)
  | n + 1, k, st =>
      match iterateOnce prm k st with
      | .inl st' => runLoop prm n (k + 1) st'
      | .inr res => res

/-- The state just before the loop starts: cleared buffers, the seed
entries `m_history_ = [m0]` and `A_history_ = [A0]` (source lines
684–687), and `trap_prev_ctr = trap_ctr = m0` (line 696). -/
noncomputable def initState {r p : ℕ} (A0 : MatR) (m0 : VecR) (coef0 : MatR) :
    RState r p :=
  { histCoef := [], histM := [m0], histA := [A0], histP := [], histPW := [],
    histPWeigs := [], objHist := [], coef := coef0, trapCtr := m0, A := A0,
    trapPrevCtr := m0 }

/-- `_reduce` (source lines 631–754): reset the histories, seed
`A_history_` with `A0` and `m_history_` with `m0`, set
`trap_prev_ctr = trap_ctr`, and run the loop. -/
noncomputable def reduceRun {r p : ℕ} (prm : DriverParams r p)
    (A0 : MatR) (m0 : VecR) (coef0 : MatR) : RState r p × ExitKind :=
  runLoop prm prm.maxIter 0 (initState A0 m0 coef0)

/-- Whether the run emits the `ConvergenceWarning` (the `for`–`else`
fires only when the loop was never broken). -/
def warnsConvergence : ExitKind → Bool
  | .maxIterHit => true
  | _ => false

/-- `self.coef_ = coef_sparse.T` after the loop. -/
noncomputable def finalCoef {r p : ℕ} (res : RState r p × ExitKind) : MatR :=
  fun i j => res.1.coef j i

/-- The length relations between the history buffers that hold after
the pre-loop seeding: `m_history_` and `A_history_` are one longer
than the per-iteration buffers. -/
def HistBalanced {r p : ℕ} (st : RState r p) : Prop :=
  st.histM.length = st.histCoef.length + 1 ∧
  st.histA.length = st.histCoef.length + 1 ∧
  st.histPW.length = st.histCoef.length ∧
  st.histPWeigs.length = st.histCoef.length ∧
  st.histP.length = st.histCoef.length ∧
  st.objHist.length = st.histCoef.length

/-- Example driver parameters at `r = p = 1`: the coefficient update
returns the previous coefficients unchanged, the trap-center update
moves the center by `1`, and both tolerances are `0`, so the
convergence test can never pass. -/
noncomputable def exPrmStep : DriverParams 1 1 :=
  { tol := 0
    tol_m := 0
    maxIter := 1
    PL_ := fun _ _ _ _ => 0
    PM_ := fun _ _ _ _ _ => 0
    rt_mod := fun _ _ => 0
    rt_inv := fun _ _ => 0
    updateCoef := fun _ _ co _ => some co
    solveM := fun m A _ => (some (fun i => m i + 1), A)
    eigSorted := fun _ => []
    objVal := fun _ _ _ _ => 0 }

/-- Example driver parameters whose coefficient update is always
infeasible (the CVXPY solve fails on the first iteration). -/
noncomputable def exPrmNone : DriverParams 1 1 :=
  { exPrmStep with updateCoef := fun _ _ _ _ => none }

/-- The seeded pre-loop state on all-zero data. -/
noncomputable def exStInit : RState 1 1 :=
  initState (fun _ _ => 0) (fun _ => 0) (fun _ _ => 0)

/-- A mid-loop state with one recorded coefficient iterate. -/
noncomputable def exStMid : RState 1 1 :=
  { exStInit with histCoef := [fun _ _ => 0] }

/-- The write condition of iteration `(j, k)` at entry `(i, j, k, l, f)`. -/
def pqCond (r : ℕ) (pure : ℕ → Option ℕ) (mixed : Finset ℕ → Option ℕ)
    (i j k l f : ℕ) : Prop :=
  l = i ∧ i < r ∧ ((j = k ∧ pure j = some f) ∨ (j ≠ k ∧ mixed {j, k} = some f))

instance pqCond_decidable (r : ℕ) (pure : ℕ → Option ℕ)
    (mixed : Finset ℕ → Option ℕ) (i j k l f : ℕ) :
    Decidable (pqCond r pure mixed i j k l f) := by
  unfold pqCond
  exact inferInstance

lemma lcgStream_lt (seed i : ℕ) : lcgStream seed i < 2 ^ 31 := by
  cases i <;> exact Nat.mod_lt _ (by norm_num)

lemma rand01_nonneg (seed i : ℕ) : 0 ≤ rand01 seed i := by
  unfold rand01
  positivity

lemma rand01_lt_one (seed i : ℕ) : rand01 seed i < 1 := by
  unfold rand01
  rw [div_lt_one (by norm_num)]
  exact_mod_cast lcgStream_lt seed i

/-- C7: constructing the optimizer (or calling `set_params`) passes the
configuration guard exactly when none of the invalidity conditions hold:
the shrinkage kind is (weighted) L1/L2, `eta > 0`, `alpha_m` and
`alpha_A` lie in `[0, eta]`, `gamma < 0`, the tolerances `tol`, `tol_m`,
`eps_solver` are positive, and inequality constraints are not combined
with a zero sparsity threshold.  Raising is `guardOk = false`, so this
iff also says the guard raises exactly when some condition is violated. -/
theorem guard_ok_iff (c : TrapConfig) (e am aA : ℚ)
    (he : c.eta = some e) (ham : c.alpha_m = some am) (haA : c.alpha_A = some aA) :
    guardOk c = true ↔
      (validThresholders.contains (strLower c.thresholder) ∧ 0 < e ∧
       0 ≤ am ∧ am ≤ e ∧ 0 ≤ aA ∧ aA ≤ e ∧ c.gamma < 0 ∧
       0 < c.tol ∧ 0 < c.tol_m ∧ 0 < c.eps_solver ∧
       ¬(c.inequality_constraints = true ∧ c.threshold = 0)) := by
  obtain ⟨thr, eta?, am?, aA?, al?, be?, g, tol, tolm, eps, thresh, ineq, n, m0?, A0?⟩ := c
  simp only at he ham haA ⊢
  subst he ham haA
  unfold guardOk postInitGuard
  cases hcon : validThresholders.contains (strLower thr) <;>
    · simp only [hcon, Option.getD_some]
      first
      | -- invalid regularizer: the guard raises at the first check
        (rw [if_pos (by simp [hcon])]
         refine iff_of_false (by simp) ?_
         rintro ⟨hc, -⟩
         simp [hcon] at hc)
      | -- valid regularizer: walk the remaining checks in order
        (rw [if_neg (by simp [hcon])]
         split_ifs with h2 h3 h4 h5 h6 h7
         · refine iff_of_false (by simp) ?_
           rintro ⟨-, he2, -⟩
           linarith
         · refine iff_of_false (by simp) ?_
           rintro ⟨-, -, h, h', -⟩
           rcases h3 with h3 | h3 <;> linarith
         · refine iff_of_false (by simp) ?_
           rintro ⟨-, -, -, -, h, h', -⟩
           rcases h4 with h4 | h4 <;> linarith
         · refine iff_of_false (by simp) ?_
           rintro ⟨-, -, -, -, -, -, hg, -⟩
           linarith
         · refine iff_of_false (by simp) ?_
           rintro ⟨-, -, -, -, -, -, -, ht1, ht2, ht3, -⟩
           rcases h6 with h6 | h6 | h6 <;> linarith
         · refine iff_of_false (by simp) ?_
           rintro ⟨-, -, -, -, -, -, -, -, -, -, hin⟩
           exact hin h7
         · refine iff_of_true rfl ?_
           push_neg at h3 h4 h6
           exact ⟨trivial, lt_of_not_le h2, h3.1, h3.2, h4.1, h4.2,
                  lt_of_not_le h5, h6.1, h6.2.1, h6.2.2, h7⟩)

/-- Witness for C7: the concrete configuration `exCfg` passes the guard,
via `guard_ok_iff` with every hypothesis discharged concretely. -/
theorem guard_ok_iff_witness : guardOk exCfg = true :=
  (guard_ok_iff exCfg 1 (1 / 2) 1 rfl rfl rfl).mpr
    (by refine ⟨by decide, ?_, ?_, ?_, ?_, ?_, ?_, ?_, ?_, ?_, ?_⟩ <;> norm_num [exCfg])

lemma guard_result_m0 (c d : TrapConfig) (hm : c.m0 = none)
    (hk : postInitGuard c = .ok d) : d.m0 = some defaultM0 := by
  unfold postInitGuard at hk
  cases he : c.eta <;>
    · simp only [he] at hk
      split_ifs at hk <;>
        first
        | (injection hk with hk
           subst hk
           simp [hm])
        | injection hk

/-- C10: when no initial trap center `m0` is supplied, the default is
generated deterministically from the fixed seed `np.random.seed(1)`:
any two guard runs with absent `m0` install the identical vector, and
every element of that vector lies in the half-open interval `[-2, 0)`.
(The RNG is modelled as a deterministic seeded stream of values in
`[0, 1)`; the default is `(rand - 1) * 2` applied entrywise.) -/
theorem default_m0_deterministic_and_bounded (c₁ c₂ d₁ d₂ : TrapConfig)
    (h1 : c₁.m0 = none) (h2 : c₂.m0 = none)
    (hk1 : postInitGuard c₁ = .ok d₁) (hk2 : postInitGuard c₂ = .ok d₂) :
    d₁.m0 = some defaultM0 ∧ d₁.m0 = d₂.m0 ∧
      ∀ i, -2 ≤ defaultM0 i ∧ defaultM0 i < 0 := by
  have e1 := guard_result_m0 c₁ d₁ h1 hk1
  have e2 := guard_result_m0 c₂ d₂ h2 hk2
  refine ⟨e1, e1.trans e2.symm, fun i => ?_⟩
  have h0 := rand01_nonneg 1 i
  have hlt := rand01_lt_one 1 i
  unfold defaultM0
  constructor <;> linarith

lemma exCfg_guard : postInitGuard exCfg = .ok exCfgOk := by
  unfold postInitGuard exCfg exCfgOk
  rw [if_neg (by decide)]
  norm_num
  simp [exCfg]

/-- Witness for C10: instantiated at the concrete configuration
`exCfg`, whose guard run is evaluated concretely. -/
theorem default_m0_witness :
    exCfgOk.m0 = some defaultM0 ∧ exCfgOk.m0 = exCfgOk.m0 ∧
      ∀ i, -2 ≤ defaultM0 i ∧ defaultM0 i < 0 :=
  default_m0_deterministic_and_bounded exCfg exCfg exCfgOk exCfgOk rfl rfl
    exCfg_guard exCfg_guard

lemma hasEigval_diagonal {r : ℕ} (d : Fin r → ℝ) (mu : ℝ) :
    hasEigval (Matrix.diagonal d) mu ↔ ∃ i, d i = mu := by
  constructor
  · rintro ⟨v, hv, hM⟩
    obtain ⟨i, hi⟩ := Function.ne_iff.mp hv
    refine ⟨i, ?_⟩
    have := congrFun hM i
    rw [Matrix.mulVec_diagonal] at this
    have hvi : v i ≠ 0 := by simpa using hi
    have : (d i - mu) * v i = 0 := by
      simp only [Pi.smul_apply, smul_eq_mul] at this
      ring_nf
      linarith [this]
    rcases mul_eq_zero.mp this with h | h
    · linarith
    · exact absurd h hvi
  · rintro ⟨i, hi⟩
    refine ⟨Pi.single i 1, ?_, ?_⟩
    · intro h
      have := congrFun h i
      simp at this
    · funext j
      rw [Matrix.mulVec_diagonal]
      by_cases hji : j = i
      · subst hji
        simp [hi]
      · simp [Pi.single_eq_of_ne hji]

lemma hasEigval_conj {r : ℕ} (P D : Matrix (Fin r) (Fin r) ℝ) (hP : IsUnit P.det)
    (mu : ℝ) : hasEigval (P * D * P⁻¹) mu ↔ hasEigval D mu := by
  have hPinv : ∀ x : Fin r → ℝ, P⁻¹.mulVec (P.mulVec x) = x := by
    intro x
    rw [Matrix.mulVec_mulVec, Matrix.nonsing_inv_mul P hP, Matrix.one_mulVec]
  have hPinv' : ∀ x : Fin r → ℝ, P.mulVec (P⁻¹.mulVec x) = x := by
    intro x
    rw [Matrix.mulVec_mulVec, Matrix.mul_nonsing_inv P hP, Matrix.one_mulVec]
  constructor
  · rintro ⟨v, hv, hM⟩
    refine ⟨P⁻¹.mulVec v, ?_, ?_⟩
    · intro h
      apply hv
      have := congrArg P.mulVec h
      rw [hPinv' v] at this
      simpa [Matrix.mulVec_zero] using this
    · have expand : P.mulVec (D.mulVec (P⁻¹.mulVec v)) = (P * D * P⁻¹).mulVec v := by
        rw [Matrix.mulVec_mulVec, Matrix.mulVec_mulVec]
      rw [← expand] at hM
      have := congrArg (P⁻¹.mulVec) hM
      rw [hPinv] at this
      rw [this, Matrix.mulVec_smul]
  · rintro ⟨w, hw, hD⟩
    refine ⟨P.mulVec w, ?_, ?_⟩
    · intro h
      apply hw
      have := congrArg (P⁻¹.mulVec) h
      rw [hPinv w] at this
      simpa [Matrix.mulVec_zero] using this
    · have expand : P.mulVec (D.mulVec (P⁻¹.mulVec (P.mulVec w)))
          = (P * D * P⁻¹).mulVec (P.mulVec w) := by
        rw [Matrix.mulVec_mulVec, Matrix.mulVec_mulVec]
      rw [← expand, hPinv w, hD, Matrix.mulVec_smul]

/-- C3: for a symmetric `A_old` with eigendecomposition
`Va * diag(lam) * Va⁻¹` and any decomposition data for `PW`, and a
threshold `gamma < 0`, `_update_A` returns a matrix whose eigenvalues
are exactly the eigenvalues of `A_old` clipped from above at `gamma`
(hence all `≤ gamma`), and the rotation back uses the eigenvector
matrix of `PW`: the result does not depend on `A_old`'s eigenvectors. -/
theorem update_A_clips_eigenvalues {r : ℕ} (gamma : ℝ) (hg : gamma < 0)
    (A_old : Matrix (Fin r) (Fin r) ℝ) (lam : Fin r → ℝ)
    (Va Vpw : Matrix (Fin r) (Fin r) ℝ)
    (hVa : IsUnit Va.det) (hVpw : IsUnit Vpw.det)
    (hdecomp : A_old = Va * Matrix.diagonal lam * Va⁻¹) :
    (∀ mu, hasEigval (update_A gamma lam Va Vpw) mu ↔
       ∃ nu, hasEigval A_old nu ∧ mu = (if gamma < nu then gamma else nu)) ∧
    (∀ mu, hasEigval (update_A gamma lam Va Vpw) mu → mu ≤ gamma) ∧
    (∀ Va', update_A gamma lam Va' Vpw = update_A gamma lam Va Vpw) := by
  have hold : ∀ nu, hasEigval A_old nu ↔ ∃ i, lam i = nu := by
    intro nu
    rw [hdecomp, hasEigval_conj Va (Matrix.diagonal lam) hVa, hasEigval_diagonal]
  have hnew : ∀ mu, hasEigval (update_A gamma lam Va Vpw) mu ↔
      ∃ i, clipEig gamma lam i = mu := by
    intro mu
    unfold update_A
    rw [hasEigval_conj Vpw _ hVpw, hasEigval_diagonal]
  refine ⟨fun mu => ?_, fun mu hmu => ?_, fun Va' => rfl⟩
  · rw [hnew mu]
    constructor
    · rintro ⟨i, hi⟩
      exact ⟨lam i, (hold (lam i)).mpr ⟨i, rfl⟩, by rw [← hi]; rfl⟩
    · rintro ⟨nu, hnu, hmu⟩
      obtain ⟨i, hi⟩ := (hold nu).mp hnu
      exact ⟨i, by rw [hmu, ← hi]; rfl⟩
  · obtain ⟨i, hi⟩ := (hnew mu).mp hmu
    rw [← hi]
    unfold clipEig
    split_ifs with h
    · exact le_refl gamma
    · exact le_of_not_lt h

/-- Witness for C3: a concrete 1×1 instance with `A_old = diag(5)`,
`gamma = -1`, identity eigenvector matrices. -/
theorem update_A_clips_eigenvalues_witness :
    (∀ mu, hasEigval (update_A (-1) (fun _ : Fin 1 => (5 : ℝ)) 1 1) mu ↔
       ∃ nu, hasEigval (Matrix.diagonal (fun _ : Fin 1 => (5 : ℝ))) nu ∧
         mu = (if (-1 : ℝ) < nu then (-1 : ℝ) else nu)) ∧
    (∀ mu, hasEigval (update_A (-1) (fun _ : Fin 1 => (5 : ℝ)) 1 1) mu → mu ≤ -1) ∧
    (∀ Va', update_A (-1) (fun _ : Fin 1 => (5 : ℝ)) Va' 1
       = update_A (-1) (fun _ : Fin 1 => (5 : ℝ)) 1 1) :=
  update_A_clips_eigenvalues (-1) (by norm_num)
    (Matrix.diagonal (fun _ : Fin 1 => (5 : ℝ))) (fun _ => 5) 1 1
    (by simp) (by simp) (by simp)

/-- C8: at a concrete local-mode input the recorded objective value is
1, while the spec's formula (each stability penalty added exactly once)
gives 5: the source adds the nonlinear-energy penalty twice and never
adds the cubic-symmetry penalty, contradicting the documented objective. -/
theorem objective_local_double_counts :
    objectiveVal 1 2 1 true 0 1 1 1 exMod exPQ zeroArr2 zeroArr2 exCoef zeroArr2
        zeroArr2 = 1 ∧
    claimObjective 1 2 1 true 0 1 1 1 exMod exPQ zeroArr2 zeroArr2 exCoef zeroArr2
        zeroArr2 = 5 ∧
    (1 : ℝ) ≠ 5 := by
  refine ⟨?_, ?_, by norm_num⟩ <;>
    norm_num [objectiveVal, claimObjective, einsumQijk, nonlinEnsLoss, cubicEnsLoss,
      sindyLoss, relaxLoss, l1Loss, exMod, exPQ, exCoef, zeroArr2, Finset.sum_range_succ]

lemma writeDiag_entry (r pj pk f₀ : ℕ) (w : ℚ) (T0 : Tensor5Q) (i j k l f : ℕ) :
    writeDiag r pj pk f₀ w T0 i j k l f =
      if j = pj ∧ k = pk ∧ l = i ∧ f = f₀ ∧ i < r then w else T0 i j k l f := rfl

lemma mem_pairList (r j k : ℕ) : (j, k) ∈ pairList r ↔ j < r ∧ k < r := by
  unfold pairList
  simp [List.mem_bind, Prod.ext_iff]

lemma pqFold_char (r : ℕ) (pure : ℕ → Option ℕ) (mixed : Finset ℕ → Option ℕ) :
    ∀ (L : List (ℕ × ℕ)) (T0 : Tensor5Q),
      (∀ jk ∈ L, (jk.1 = jk.2 → (pure jk.1).isSome = true) ∧
                 (jk.1 ≠ jk.2 → (mixed {jk.1, jk.2}).isSome = true)) →
      ∃ T, L.foldlM (pqStep r pure mixed) T0 = some T ∧
        ∀ i j k l f, T i j k l f =
          if (j, k) ∈ L ∧ pqCond r pure mixed i j k l f then
            (if j = k then 1 else 1 / 2)
          else T0 i j k l f := by
  intro L
  induction L with
  | nil =>
      intro T0 _
      refine ⟨T0, rfl, fun i j k l f => ?_⟩
      simp
  | cons p L ih =>
      intro T0 htot
      rcases p with ⟨pj, pk⟩
      have hbase : ∃ f₀ w, pqStep r pure mixed T0 (pj, pk)
            = some (writeDiag r pj pk f₀ w T0) ∧
          ((pj = pk ∧ pure pj = some f₀ ∧ w = 1) ∨
           (pj ≠ pk ∧ mixed {pj, pk} = some f₀ ∧ w = 1 / 2)) := by
        by_cases hjk : pj = pk
        · obtain ⟨f₀, hf₀⟩ := Option.isSome_iff_exists.mp
            ((htot (pj, pk) (by simp)).1 hjk)
          dsimp only at hf₀
          refine ⟨f₀, 1, ?_, Or.inl ⟨hjk, hf₀, rfl⟩⟩
          unfold pqStep
          dsimp only
          rw [if_pos hjk, hf₀]
          rfl
        · obtain ⟨f₀, hf₀⟩ := Option.isSome_iff_exists.mp
            ((htot (pj, pk) (by simp)).2 hjk)
          dsimp only at hf₀
          refine ⟨f₀, 1 / 2, ?_, Or.inr ⟨hjk, hf₀, rfl⟩⟩
          unfold pqStep
          dsimp only
          rw [if_neg hjk, hf₀]
          rfl
      obtain ⟨f₀, w, hstep, hcase⟩ := hbase
      obtain ⟨T, hT, hform⟩ := ih (writeDiag r pj pk f₀ w T0)
        (fun jk h => htot jk (List.mem_cons_of_mem _ h))
      refine ⟨T, ?_, ?_⟩
      · rw [List.foldlM_cons, hstep]
        simpa using hT
      · intro i j k l f
        rw [hform i j k l f, writeDiag_entry]
        by_cases hC : pqCond r pure mixed i j k l f
        · by_cases hm : (j, k) ∈ L
          · simp [hm, hC, List.mem_cons]
          · by_cases hp : j = pj ∧ k = pk
            · -- this entry is exactly the one iteration `(pj, pk)` wrote
              obtain ⟨hpj, hpk⟩ := hp
              subst hpj
              subst hpk
              have hval : f = f₀ ∧ w = (if j = k then (1 : ℚ) else 1 / 2) := by
                rcases hcase with ⟨hd, hf, hw⟩ | ⟨hd, hf, hw⟩
                · rcases hC.2.2 with ⟨-, hpf⟩ | ⟨hne, -⟩
                  · rw [hf] at hpf
                    exact ⟨(Option.some_inj.mp hpf).symm, by rw [if_pos hd, hw]⟩
                  · exact absurd hd hne
                · rcases hC.2.2 with ⟨heq, -⟩ | ⟨-, hmf⟩
                  · exact absurd heq hd
                  · rw [hf] at hmf
                    exact ⟨(Option.some_inj.mp hmf).symm, by rw [if_neg hd, hw]⟩
              obtain ⟨hf, hw⟩ := hval
              subst hf
              subst hw
              simp [hm, hC, hC.1, hC.2.1, List.mem_cons]
              exact (if_pos (hC.1 ▸ hC)).symm
            · have hne : ¬((j, k) = (pj, pk)) :=
                fun he => hp ⟨congrArg Prod.fst he, congrArg Prod.snd he⟩
              have h2 : ¬(j = pj ∧ k = pk ∧ l = i ∧ f = f₀ ∧ i < r) :=
                fun h => hp ⟨h.1, h.2.1⟩
              simp [hm, hne, h2, List.mem_cons]
        · -- the write condition fails, so nothing was or is written here
          have h2 : ¬(j = pj ∧ k = pk ∧ l = i ∧ f = f₀ ∧ i < r) := by
            rintro ⟨h1, h2, h3, h4, h5⟩
            refine hC ⟨h3, h5, ?_⟩
            rcases hcase with ⟨hd, hf, -⟩ | ⟨hd, hf, -⟩
            · refine Or.inl ⟨by rw [h1, h2]; exact hd, by rw [h1, h4]; exact hf⟩
            · refine Or.inr ⟨by rw [h1, h2]; exact hd, by rw [h1, h2, h4]; exact hf⟩
          simp [hC, h2]

lemma buildPQ_eq_closed (r : ℕ) (pure : ℕ → Option ℕ) (mixed : Finset ℕ → Option ℕ)
    (hpure : ∀ j < r, (pure j).isSome = true)
    (hmix : ∀ j < r, ∀ k < r, j ≠ k → (mixed {j, k}).isSome = true) :
    buildPQ r pure mixed = some (PQclosed r pure mixed) := by
  obtain ⟨T, hT, hform⟩ := pqFold_char r pure mixed (pairList r) (fun _ _ _ _ _ => 0)
    (by
      intro jk hjk
      have hmem := (mem_pairList r jk.1 jk.2).mp (by simpa using hjk)
      exact ⟨fun he => hpure jk.1 hmem.1,
             fun hne => hmix jk.1 hmem.1 jk.2 hmem.2 hne⟩)
  have hTc : T = PQclosed r pure mixed := by
    funext i j k l f
    rw [hform i j k l f]
    unfold PQclosed
    by_cases hbox : j < r ∧ k < r ∧ l = i ∧ i < r
    · obtain ⟨hj, hk, hl, hi⟩ := hbox
      subst hl
      by_cases hd : j = k
      · subst hd
        have hmem := (mem_pairList r j j).mpr ⟨hj, hj⟩
        by_cases hpf : pure j = some f
        · simp [hmem, hpf, hi, hj, pqCond]
        · simp [hmem, hpf, hi, hj, pqCond]
      · have hmem := (mem_pairList r j k).mpr ⟨hj, hk⟩
        by_cases hmf : mixed {j, k} = some f
        · simp [hmem, hmf, hi, hj, hk, hd, pqCond]
        · simp [hmem, hmf, hi, hj, hk, hd, pqCond]
    · rw [if_neg (fun h => hbox ⟨((mem_pairList r j k).mp h.1).1,
          ((mem_pairList r j k).mp h.1).2, h.2.1, h.2.2.1⟩), if_neg hbox]
  unfold buildPQ
  rw [hT, hTc]

/-- C1: for `r ≥ 2` and a well-formed degree-2 term list, the tensor
built by `_build_PQ` has weight 1.0 at the pure-quadratic column on the
target diagonal when `j = k`, weight 0.5 at the mixed column (looked up
by the unordered pair) when `j ≠ k`, and is zero everywhere else;
consequently it is invariant under swapping its two variable axes
(axes 1 and 2), and pure-term columns are nonzero only on the diagonal
of those axes. -/
theorem build_PQ_weights (r : ℕ) (hr : 2 ≤ r) (polyterms : List (ℕ × List ℕ))
    (hwf : WellFormedQuadLib r polyterms) :
    ∃ T, buildPQ r (pureLookup polyterms) (mixedLookup polyterms) = some T ∧
      (∀ i j f, i < r → j < r → pureLookup polyterms j = some f → T i j j i f = 1) ∧
      (∀ i j k f, i < r → j < r → k < r → j ≠ k →
         mixedLookup polyterms {j, k} = some f → T i j k i f = 1 / 2) ∧
      (∀ i j k l f, T i j k l f ≠ 0 →
         l = i ∧ i < r ∧ j < r ∧ k < r ∧
           ((j = k ∧ pureLookup polyterms j = some f) ∨
            (j ≠ k ∧ mixedLookup polyterms {j, k} = some f))) ∧
      (∀ i j k l f, T i j k l f = T i k j l f) ∧
      (∀ q f, q < r → pureLookup polyterms q = some f →
         ∀ i j k l, T i j k l f ≠ 0 → j = k) := by
  obtain ⟨hpure, hmix, hdisj⟩ := hwf
  have hT := buildPQ_eq_closed r (pureLookup polyterms) (mixedLookup polyterms)
    hpure hmix
  have hzero : ∀ i j k l f, PQclosed r (pureLookup polyterms)
      (mixedLookup polyterms) i j k l f ≠ 0 →
      l = i ∧ i < r ∧ j < r ∧ k < r ∧
        ((j = k ∧ pureLookup polyterms j = some f) ∨
         (j ≠ k ∧ mixedLookup polyterms {j, k} = some f)) := by
    intro i j k l f h
    unfold PQclosed at h
    split_ifs at h with h1 h2 h3 h4
    · exact ⟨h1.2.2.1, h1.2.2.2, h1.1, h1.2.1, Or.inl ⟨h2, h3⟩⟩
    · exact absurd rfl h
    · exact ⟨h1.2.2.1, h1.2.2.2, h1.1, h1.2.1, Or.inr ⟨h2, h4⟩⟩
    · exact absurd rfl h
    · exact absurd rfl h
  refine ⟨PQclosed r (pureLookup polyterms) (mixedLookup polyterms), hT,
    fun i j f hi hj hpf => ?_, fun i j k f hi hj hk hne hmf => ?_, hzero,
    fun i j k l f => ?_, fun q f hq hpf i j k l h => ?_⟩
  · unfold PQclosed
    simp [hi, hj, hpf]
  · unfold PQclosed
    simp [hi, hj, hk, hne, hmf]
  · by_cases hd : j = k
    · subst hd
      rfl
    · unfold PQclosed
      have hd2 : ¬(k = j) := fun h => hd h.symm
      by_cases hbox : j < r ∧ k < r ∧ l = i ∧ i < r
      · obtain ⟨hj, hk, hl, hi⟩ := hbox
        subst hl
        simp [hj, hk, hi, hd, hd2,
          show ({k, j} : Finset ℕ) = {j, k} from Finset.pair_comm k j]
      · have hbox2 : ¬(k < r ∧ j < r ∧ l = i ∧ i < r) :=
          fun h => hbox ⟨h.2.1, h.1, h.2.2⟩
        rw [if_neg hbox, if_neg hbox2]
  · rcases (hzero i j k l f h).2.2.2.2 with ⟨hd, -⟩ | ⟨hne, hmf⟩
    · exact hd
    · obtain ⟨-, -, hj, hk, -⟩ := hzero i j k l f h
      exact absurd (hpf.trans hmf.symm) (hdisj q hq j hj k hk hne)

/-- Witness for C1: the concrete two-variable degree-2 library
`x0, x1, x0², x0·x1, x1²`, with well-formedness checked by `decide`. -/
theorem build_PQ_weights_witness :
    ∃ T, buildPQ 2 (pureLookup polyterms2) (mixedLookup polyterms2) = some T ∧
      (∀ i j f, i < 2 → j < 2 → pureLookup polyterms2 j = some f → T i j j i f = 1) ∧
      (∀ i j k f, i < 2 → j < 2 → k < 2 → j ≠ k →
         mixedLookup polyterms2 {j, k} = some f → T i j k i f = 1 / 2) ∧
      (∀ i j k l f, T i j k l f ≠ 0 →
         l = i ∧ i < 2 ∧ j < 2 ∧ k < 2 ∧
           ((j = k ∧ pureLookup polyterms2 j = some f) ∨
            (j ≠ k ∧ mixedLookup polyterms2 {j, k} = some f))) ∧
      (∀ i j k l f, T i j k l f = T i k j l f) ∧
      (∀ q f, q < 2 → pureLookup polyterms2 q = some f →
         ∀ i j k l, T i j k l f ≠ 0 → j = k) :=
  build_PQ_weights 2 (by norm_num) polyterms2
    (by unfold WellFormedQuadLib; decide)

section ConstraintLemmas

lemma listSumRangeMap (f : ℕ → ℕ) (n : ℕ) :
    ((List.range n).map f).sum = ∑ i ∈ Finset.range n, f i := by
  induction n with
  | zero => simp
  | succ m ih =>
      rw [List.range_succ, List.map_append, List.sum_append, Finset.sum_range_succ, ih]
      simp

lemma listSumRangePrime (f : ℕ → ℕ) :
    ∀ (n s : ℕ), ((List.range' s n).map f).sum = ∑ t ∈ Finset.range n, f (s + t) := by
  intro n
  induction n with
  | zero => simp
  | succ m ih =>
      intro s
      rw [List.range'_succ, List.map_cons, List.sum_cons, ih (s + 1),
          Finset.sum_range_succ']
      simp [Nat.add_comm, Nat.add_assoc, Nat.add_left_comm]

lemma le_maxExp_of_mem {x : ℕ} {l : List ℕ} (h : x ∈ l) : x ≤ maxExp l := by
  induction l with
  | nil => cases h
  | cons a l ih =>
      rcases List.mem_cons.mp h with rfl | h
      · exact le_max_left _ _
      · exact le_trans (ih h) (le_max_right _ _)

lemma maxExp_le {l : List ℕ} {m : ℕ} (h : ∀ x ∈ l, x ≤ m) : maxExp l ≤ m := by
  induction l with
  | nil => exact Nat.zero_le m
  | cons a l ih =>
      exact max_le (h a (List.mem_cons_self a l)) (ih fun x hx => h x (List.mem_cons_of_mem _ hx))

lemma sumExp_expVec (r j k : ℕ) (hj : j < r) (hk : k < r) :
    sumExp (expVec r j k) = 2 := by
  unfold sumExp expVec
  rw [listSumRangeMap, Finset.sum_add_distrib]
  simp [Finset.sum_ite_eq', Finset.mem_range, hj, hk]

lemma maxExp_expVec_self (r j : ℕ) (hj : j < r) : maxExp (expVec r j j) = 2 := by
  apply le_antisymm
  · apply maxExp_le
    intro x hx
    obtain ⟨a, -, rfl⟩ := List.mem_map.mp hx
    split_ifs <;> omega
  · apply le_maxExp_of_mem
    exact List.mem_map.mpr ⟨j, List.mem_range.mpr hj, by simp⟩

lemma maxExp_expVec_ne (r j k : ℕ) (hj : j < r) (hne : j ≠ k) :
    maxExp (expVec r j k) = 1 := by
  apply le_antisymm
  · apply maxExp_le
    intro x hx
    obtain ⟨a, -, rfl⟩ := List.mem_map.mp hx
    split_ifs with h1 h2 h2 <;> first | omega | (exact absurd (h1 ▸ h2) hne)
  · apply le_maxExp_of_mem
    refine List.mem_map.mpr ⟨j, List.mem_range.mpr hj, ?_⟩
    rw [if_pos rfl, if_neg hne]

lemma maxExp_linVec_le (r j : ℕ) : maxExp (linVec r j) ≤ 1 := by
  apply maxExp_le
  intro x hx
  obtain ⟨a, -, rfl⟩ := List.mem_map.mp hx
  split_ifs <;> omega

lemma sumExp_linVec_le (r j : ℕ) : sumExp (linVec r j) ≤ 1 := by
  unfold sumExp linVec
  rw [listSumRangeMap]
  simp [Finset.sum_ite_eq', Finset.mem_range]
  split_ifs <;> omega

lemma maxExp_replicate (r : ℕ) : maxExp (List.replicate r 0) = 0 :=
  le_antisymm (maxExp_le (by simp)) (Nat.zero_le _)

lemma sumExp_replicate (r : ℕ) : sumExp (List.replicate r 0) = 0 := by
  unfold sumExp
  simp

lemma flatMap_congr {α β : Type} {l : List α} {f g : α → List β}
    (h : ∀ a ∈ l, f a = g a) : l.flatMap f = l.flatMap g := by
  induction l with
  | nil => rfl
  | cons x xs ih =>
      simp only [List.flatMap_cons]
      rw [h x (List.mem_cons_self x xs), ih fun a ha => h a (List.mem_cons_of_mem _ ha)]

lemma flatMap_singleton_eq_map {α β : Type} (l : List α) (g : α → β) :
    l.flatMap (fun a => [g a]) = l.map g := by
  induction l <;> simp_all

lemma quad_filter_pure (r : ℕ) :
    (quadTerms r).filter (fun e => decide (maxExp e = 2)) =
      (List.range r).map (fun j => expVec r j j) := by
  unfold quadTerms
  rw [List.filter_flatMap]
  rw [flatMap_congr (g := fun j => [expVec r j j]) ?_, flatMap_singleton_eq_map]
  intro j hj
  have hj' := List.mem_range.mp hj
  rw [List.filter_map]
  have hr' : r - j = (r - (j + 1)) + 1 := by omega
  rw [hr', List.range'_succ]
  rw [List.filter_cons_of_pos (by simp [Function.comp, maxExp_expVec_self r j hj'])]
  rw [List.filter_eq_nil_iff.mpr ?_]
  · simp
  · intro k hk
    have hk' := List.mem_range'_1.mp hk
    have : maxExp (expVec r j k) = 1 :=
      maxExp_expVec_ne r j k hj' (by omega)
    simp [Function.comp, this]

lemma quad_filter_mixed (r : ℕ) :
    (quadTerms r).filter (fun e => decide (maxExp e = 1 ∧ sumExp e = 2)) =
      (List.range r).flatMap
        (fun j => (List.range' (j + 1) (r - (j + 1))).map (fun k => expVec r j k)) := by
  unfold quadTerms
  rw [List.filter_flatMap]
  apply flatMap_congr
  intro j hj
  have hj' := List.mem_range.mp hj
  rw [List.filter_map]
  have hr' : r - j = (r - (j + 1)) + 1 := by omega
  rw [hr', List.range'_succ]
  rw [List.filter_cons_of_neg (by simp [Function.comp, maxExp_expVec_self r j hj'])]
  rw [List.filter_eq_self.mpr ?_]
  intro k hk
  have hk' := List.mem_range'_1.mp hk
  have h1 : maxExp (expVec r j k) = 1 := maxExp_expVec_ne r j k hj' (by omega)
  have h2 : sumExp (expVec r j k) = 2 := sumExp_expVec r j k hj' (by omega)
  simp [Function.comp, h1, h2]

lemma lib_filter_pure (r : ℕ) (b : Bool) :
    (libTerms r b).filter (fun e => decide (maxExp e = 2)) =
      (List.range r).map (fun j => expVec r j j) := by
  unfold libTerms
  rw [List.filter_append, List.filter_append]
  have h1 : (if b then [List.replicate r 0] else []).filter
      (fun e => decide (maxExp e = 2)) = [] := by
    cases b <;> simp [maxExp_replicate]
  have h2 : ((List.range r).map (linVec r)).filter
      (fun e => decide (maxExp e = 2)) = [] := by
    apply List.filter_eq_nil_iff.mpr
    intro e he
    obtain ⟨j, -, rfl⟩ := List.mem_map.mp he
    have hle := maxExp_linVec_le r j
    simp only [decide_eq_true_eq]
    omega
  rw [h1, h2, quad_filter_pure]
  simp

lemma lib_filter_mixed (r : ℕ) (b : Bool) :
    (libTerms r b).filter (fun e => decide (maxExp e = 1 ∧ sumExp e = 2)) =
      (List.range r).flatMap
        (fun j => (List.range' (j + 1) (r - (j + 1))).map (fun k => expVec r j k)) := by
  unfold libTerms
  rw [List.filter_append, List.filter_append]
  have h1 : (if b then [List.replicate r 0] else []).filter
      (fun e => decide (maxExp e = 1 ∧ sumExp e = 2)) = [] := by
    cases b <;> simp [maxExp_replicate, sumExp_replicate]
  have h2 : ((List.range r).map (linVec r)).filter
      (fun e => decide (maxExp e = 1 ∧ sumExp e = 2)) = [] := by
    apply List.filter_eq_nil_iff.mpr
    intro e he
    obtain ⟨j, -, rfl⟩ := List.mem_map.mp he
    have hs := sumExp_linVec_le r j
    simp only [decide_eq_true_eq, not_and]
    intro h1x
    omega
  rw [h1, h2, quad_filter_mixed]
  simp

lemma enumFrom_filter_map {α β : Type} (P : α → Bool) (g : α → β) :
    ∀ (n : ℕ) (l : List α),
      ((l.enumFrom n).filter (fun t => P t.2)).map (fun t => g t.2)
        = (l.filter P).map g := by
  intro n l
  induction l generalizing n with
  | nil => rfl
  | cons x xs ih =>
      by_cases hPx : P x
      · simp [List.enumFrom_cons, hPx, ih (n + 1)]
      · simp [List.enumFrom_cons, hPx, ih (n + 1)]

lemma indexOf_ite_two (j : ℕ) : ∀ (n s : ℕ), s ≤ j → j < s + n →
    ((List.range' s n).map (fun a => if a = j then 2 else 0)).indexOf 2 = j - s := by
  intro n
  induction n with
  | zero => intro s h1 h2; omega
  | succ m ih =>
      intro s h1 h2
      rw [List.range'_succ, List.map_cons]
      by_cases hs : s = j
      · rw [if_pos hs, List.indexOf_cons_self]
        omega
      · rw [if_neg hs, List.indexOf_cons_ne _ (by omega)]
        rw [ih (s + 1) (by omega) (by omega)]
        omega

lemma argmaxL_expVec_self (r j : ℕ) (hj : j < r) : argmaxL (expVec r j j) = j := by
  unfold argmaxL
  rw [maxExp_expVec_self r j hj]
  have hv : expVec r j j = (List.range r).map (fun a => if a = j then 2 else 0) := by
    unfold expVec
    apply List.map_congr_left
    intro a _
    split_ifs <;> omega
  rw [hv, List.range_eq_range']
  simpa using indexOf_ite_two j r 0 (Nat.zero_le j) (by omega)

lemma getD_map_range (f : ℕ → ℕ) (r a : ℕ) :
    ((List.range r).map f).getD a 0 = if a < r then f a else 0 := by
  rw [List.getD_eq_getElem?_getD]
  by_cases h : a < r
  · rw [List.getElem?_map, List.getElem?_range h]
    simp [h]
  · rw [List.getElem?_eq_none (by simpa using Nat.le_of_not_lt h)]
    simp [h]

lemma argwhereOne_expVec (r j k : ℕ) (hj : j < r) (hk : k < r) (hne : j ≠ k) :
    argwhereOne (expVec r j k) = {j, k} := by
  unfold argwhereOne
  apply Finset.ext
  intro a
  rw [List.mem_toFinset, List.mem_filter, List.mem_range]
  unfold expVec
  rw [List.length_map, List.length_range]
  constructor
  · rintro ⟨ha, hval⟩
    rw [getD_map_range, if_pos ha] at hval
    have hval' := of_decide_eq_true hval
    simp only [Finset.mem_insert, Finset.mem_singleton]
    by_cases h1 : a = j
    · exact Or.inl h1
    · by_cases h2 : a = k
      · exact Or.inr h2
      · rw [if_neg h1, if_neg h2] at hval'
        omega
  · intro ha
    simp only [Finset.mem_insert, Finset.mem_singleton] at ha
    rcases ha with rfl | rfl
    · refine ⟨hj, ?_⟩
      rw [getD_map_range, if_pos hj, if_pos rfl, if_neg hne]
      simp
    · refine ⟨hk, ?_⟩
      rw [getD_map_range, if_pos hk, if_neg (fun h => hne h.symm), if_pos rfl]
      simp

lemma dictInsert_append {α β : Type} [DecidableEq α] (acc : List (α × β)) (p : α × β)
    (h : ∀ q ∈ acc, q.1 ≠ p.1) : dictInsert acc p = acc ++ [p] := by
  unfold dictInsert
  rw [if_neg ?_]
  intro hany
  obtain ⟨q, hq, hq2⟩ := List.any_eq_true.mp hany
  exact h q hq (of_decide_eq_true hq2)

lemma foldl_dictInsert {α β : Type} [DecidableEq α] :
    ∀ (l acc : List (α × β)), (((acc ++ l).map Prod.fst).Nodup) →
      l.foldl dictInsert acc = acc ++ l := by
  intro l
  induction l with
  | nil => intro acc _; simp
  | cons p l ih =>
      intro acc hnd
      have hkey : ∀ q ∈ acc, q.1 ≠ p.1 := by
        intro q hq
        rw [List.map_append] at hnd
        have hdisj := (List.nodup_append.mp hnd).2.2
        intro he
        exact hdisj (List.mem_map_of_mem Prod.fst hq)
          (by rw [he]; exact List.mem_map_of_mem Prod.fst (List.mem_cons_self p l))
      rw [List.foldl_cons, dictInsert_append acc p hkey, ih (acc ++ [p]) ?_]
      · simp
      · simpa using hnd

lemma dictOfList_eq_self {α β : Type} [DecidableEq α] (l : List (α × β))
    (h : (l.map Prod.fst).Nodup) : dictOfList l = l := by
  unfold dictOfList
  simpa using foldl_dictInsert l [] (by simpa using h)

lemma dictLookup_isSome {α β : Type} [DecidableEq α] (l : List (α × β)) (k : α)
    (h : k ∈ l.map Prod.fst) : (dictLookup l k).isSome = true := by
  induction l with
  | nil => simp at h
  | cons q l ih =>
      unfold dictLookup
      rw [List.find?_cons]
      by_cases hq : q.1 = k
      · simp [hq]
      · rw [decide_eq_false hq]
        rcases List.mem_map.mp h with ⟨x, hx, hxk⟩
        rcases List.mem_cons.mp hx with rfl | hx'
        · exact absurd hxk hq
        · exact ih (hxk ▸ List.mem_map_of_mem Prod.fst hx')

lemma pure_keys (r : ℕ) (b : Bool) :
    (pureEntriesOf (polytermsOf r b)).map Prod.fst = List.range r := by
  unfold pureEntriesOf polytermsOf
  rw [List.map_map]
  rw [show (Prod.fst ∘ fun t : ℕ × List ℕ => (argmaxL t.2, t.1))
      = (fun t : ℕ × List ℕ => argmaxL t.2) from rfl]
  rw [show (libTerms r b).enum = (libTerms r b).enumFrom 0 from rfl]
  rw [enumFrom_filter_map (fun e => decide (maxExp e = 2)) argmaxL 0 (libTerms r b),
      lib_filter_pure, List.map_map]
  have : ((List.range r).map (argmaxL ∘ fun j => expVec r j j)) = (List.range r).map id := by
    apply List.map_congr_left
    intro j hj
    exact argmaxL_expVec_self r j (List.mem_range.mp hj)
  rw [this, List.map_id]

lemma pureLookup_total (r : ℕ) (b : Bool) (i : ℕ) (hi : i < r) :
    (dictLookup (dictOfList (pureEntriesOf (polytermsOf r b))) i).isSome = true := by
  rw [dictOfList_eq_self _ (by rw [pure_keys]; exact List.nodup_range r)]
  exact dictLookup_isSome _ _ (by rw [pure_keys]; exact List.mem_range.mpr hi)

lemma mixed_keys (r : ℕ) (b : Bool) :
    (mixedEntriesOf (polytermsOf r b)).map Prod.fst =
      (List.range r).flatMap (fun j => (List.range' (j + 1) (r - (j + 1))).map
        (fun k => ({j, k} : Finset ℕ))) := by
  unfold mixedEntriesOf polytermsOf
  rw [List.map_map]
  rw [show (Prod.fst ∘ fun t : ℕ × List ℕ => (argwhereOne t.2, t.1))
      = (fun t : ℕ × List ℕ => argwhereOne t.2) from rfl]
  rw [show (libTerms r b).enum = (libTerms r b).enumFrom 0 from rfl]
  rw [enumFrom_filter_map (fun e => decide (maxExp e = 1 ∧ sumExp e = 2)) argwhereOne
        0 (libTerms r b),
      lib_filter_mixed, List.map_flatMap]
  apply flatMap_congr
  intro j hj
  rw [List.map_map]
  apply List.map_congr_left
  intro k hk
  have hj' := List.mem_range.mp hj
  have hk' := List.mem_range'_1.mp hk
  exact argwhereOne_expVec r j k hj' (by omega) (by omega)

lemma pair_eq {j k j' k' : ℕ} (h1 : j < k) (h2 : j' < k')
    (he : ({j, k} : Finset ℕ) = {j', k'}) : j = j' ∧ k = k' := by
  have hj : j ∈ ({j', k'} : Finset ℕ) := he ▸ Finset.mem_insert_self j {k}
  have hk : k ∈ ({j', k'} : Finset ℕ) := he ▸ (by simp : k ∈ ({j, k} : Finset ℕ))
  have hj2 : j' ∈ ({j, k} : Finset ℕ) := he ▸ Finset.mem_insert_self j' {k'}
  simp only [Finset.mem_insert, Finset.mem_singleton] at hj hk hj2
  rcases hj with h | h
  · subst h
    rcases hk with h2x | h2x
    · omega
    · subst h2x
      exact ⟨rfl, rfl⟩
  · subst h
    rcases hj2 with h3 | h3 <;> omega

lemma sum_complement (n : ℕ) : ∑ t ∈ Finset.range n, (n - 1 - t) = n.choose 2 := by
  rw [Finset.sum_range_reflect (fun t => t) n, Finset.sum_range_id,
      Nat.choose_two_right]

lemma sum_choose_two (r : ℕ) :
    ∑ i ∈ Finset.range r, (r - 1 - i).choose 2 = r.choose 3 := by
  induction r with
  | zero => simp
  | succ m ih =>
      rw [Finset.sum_range_succ']
      have e1 : ∀ i, (m + 1 - 1 - (i + 1)).choose 2 = (m - 1 - i).choose 2 := by
        intro i
        congr 1
        omega
      rw [Finset.sum_congr rfl (fun i _ => e1 i), ih, Nat.choose_succ_succ m 2]
      simp [Nat.add_comm]

lemma length_mixed_entries (r : ℕ) (b : Bool) :
    (mixedEntriesOf (polytermsOf r b)).length = r.choose 2 := by
  have h := congrArg List.length (mixed_keys r b)
  rw [List.length_map] at h
  rw [h, List.length_flatMap, listSumRangeMap]
  try simp only [Function.comp_def]
  have e1 : ∀ j, ((List.range' (j + 1) (r - (j + 1))).map
      (fun k => ({j, k} : Finset ℕ))).length = r - 1 - j := by
    intro j
    rw [List.length_map]
    simp [List.length_range']
    omega
  rw [Finset.sum_congr rfl (fun j _ => e1 j), sum_complement]

lemma length_triples (r : ℕ) : (triples r).length = r.choose 3 := by
  unfold triples
  rw [List.length_flatMap, listSumRangeMap]
  try simp only [Function.comp_def]
  have inner : ∀ i, ((List.range' (i + 1) (r - (i + 1))).flatMap
      (fun j => (List.range' (j + 1) (r - (j + 1))).map (fun k => (i, j, k)))).length
      = (r - 1 - i).choose 2 := by
    intro i
    rw [List.length_flatMap]
    try simp only [Function.comp_def]
    have e2 : ((List.range' (i + 1) (r - (i + 1))).map
        (fun j => ((List.range' (j + 1) (r - (j + 1))).map (fun k => (i, j, k))).length))
        = (List.range' (i + 1) (r - (i + 1))).map (fun j => r - (j + 1)) := by
      apply List.map_congr_left
      intro j _
      simp [List.length_map, List.length_range']
    rw [e2, listSumRangePrime]
    have e3 : ∀ t, r - (i + 1 + t + 1) = (r - (i + 1)) - 1 - t := by
      intro t
      omega
    rw [Finset.sum_congr rfl (fun t _ => e3 t), sum_complement]
    congr 1
    omega
  rw [Finset.sum_congr rfl (fun i _ => inner i), sum_choose_two]

lemma mixed_keys_nodup (r : ℕ) (b : Bool) :
    ((mixedEntriesOf (polytermsOf r b)).map Prod.fst).Nodup := by
  rw [mixed_keys]
  rw [List.nodup_flatMap]
  constructor
  · intro j hj
    apply List.Nodup.map_on ?_ (List.nodup_range' _ _)
    intro k1 hk1 k2 hk2 he
    have h1 := List.mem_range'_1.mp hk1
    have h2 := List.mem_range'_1.mp hk2
    exact (pair_eq (by omega : j < k1) (by omega : j < k2) he).2.symm ▸ rfl
  · apply List.Pairwise.imp ?_ (List.pairwise_lt_range r)
    intro a b' hab x hxa hxb
    obtain ⟨k1, hk1, he1⟩ := List.mem_map.mp hxa
    obtain ⟨k2, hk2, he2⟩ := List.mem_map.mp hxb
    have h1 := List.mem_range'_1.mp hk1
    have h2 := List.mem_range'_1.mp hk2
    have := pair_eq (by omega : a < k1) (by omega : b' < k2) (he1.trans he2.symm)
    omega

lemma mem_mixed_keys (r : ℕ) (b : Bool) (x y : ℕ) (hx : x < r) (hy : y < r)
    (hne : x ≠ y) :
    ({x, y} : Finset ℕ) ∈ (mixedEntriesOf (polytermsOf r b)).map Prod.fst := by
  rw [mixed_keys]
  rcases Nat.lt_or_ge x y with h | h
  · exact List.mem_flatMap.mpr ⟨x, List.mem_range.mpr hx,
      List.mem_map.mpr ⟨y, List.mem_range'_1.mpr ⟨by omega, by omega⟩, rfl⟩⟩
  · have h' : y < x := by omega
    exact List.mem_flatMap.mpr ⟨y, List.mem_range.mpr hy,
      List.mem_map.mpr ⟨x, List.mem_range'_1.mpr ⟨by omega, by omega⟩,
        Finset.pair_comm y x⟩⟩

lemma mixedLookup_total (r : ℕ) (b : Bool) (x y : ℕ) (hx : x < r) (hy : y < r)
    (hne : x ≠ y) :
    (dictLookup (dictOfList (mixedEntriesOf (polytermsOf r b))) {x, y}).isSome
      = true := by
  rw [dictOfList_eq_self _ (mixed_keys_nodup r b)]
  exact dictLookup_isSome _ _ (mem_mixed_keys r b x y hx hy hne)

lemma fsetFst_pair {j k : ℕ} (h : j < k) : fsetFst {j, k} = j := by
  unfold fsetFst
  rw [Finset.min_insert, Finset.min_singleton, ← WithTop.coe_inf,
      WithTop.untop'_coe]
  exact inf_eq_left.mpr h.le

lemma fsetSnd_pair {j k : ℕ} (h : j < k) : fsetSnd {j, k} = k := by
  unfold fsetSnd
  rw [Finset.max_insert, Finset.max_singleton, ← WithBot.coe_sup,
      WithBot.unbot'_coe]
  exact sup_eq_right.mpr h.le

lemma mapMO_isSome {α β : Type} (f : α → Option β) :
    ∀ (l : List α), (∀ x ∈ l, (f x).isSome = true) →
      ∃ ys, mapMO f l = some ys ∧ ys.length = l.length := by
  intro l
  induction l with
  | nil => exact fun _ => ⟨[], rfl, rfl⟩
  | cons x xs ih =>
      intro h
      obtain ⟨y, hy⟩ := Option.isSome_iff_exists.mp (h x (List.mem_cons_self x xs))
      obtain ⟨ys, hys, hlen⟩ := ih fun a ha => h a (List.mem_cons_of_mem _ ha)
      refine ⟨y :: ys, ?_, by simp [hlen]⟩
      unfold mapMO
      rw [hy, hys]
      rfl

/-- Every entry of the mixed dict has key `{j, k}` for some `j < k < r`. -/
lemma mixed_item_shape (r : ℕ) (b : Bool) (sm : Finset ℕ × ℕ)
    (hsm : sm ∈ mixedEntriesOf (polytermsOf r b)) :
    ∃ j k, j < k ∧ k < r ∧ sm.1 = ({j, k} : Finset ℕ) := by
  have hkey : sm.1 ∈ (mixedEntriesOf (polytermsOf r b)).map Prod.fst :=
    List.mem_map_of_mem Prod.fst hsm
  rw [mixed_keys] at hkey
  obtain ⟨j, hj, hmem⟩ := List.mem_flatMap.mp hkey
  obtain ⟨k, hk, he⟩ := List.mem_map.mp hmem
  have h1 := List.mem_range'_1.mp hk
  exact ⟨j, k, by omega, by omega, he.symm⟩

lemma mem_triples (r : ℕ) (ijk : ℕ × ℕ × ℕ) (h : ijk ∈ triples r) :
    ijk.1 < ijk.2.1 ∧ ijk.2.1 < ijk.2.2 ∧ ijk.2.2 < r := by
  unfold triples at h
  obtain ⟨i, hi, h2⟩ := List.mem_flatMap.mp h
  obtain ⟨j, hj, h3⟩ := List.mem_flatMap.mp h2
  obtain ⟨k, hk, he⟩ := List.mem_map.mp h3
  subst he
  have hi' := List.mem_range.mp hi
  have hj' := List.mem_range'_1.mp hj
  have hk' := List.mem_range'_1.mp hk
  dsimp only
  exact ⟨by omega, by omega, by omega⟩

lemma doubleRow1_isSome (pureD : List (ℕ × ℕ)) (sm : Finset ℕ × ℕ)
    (h : (dictLookup pureD (fsetFst sm.1)).isSome = true) :
    (doubleRow1 pureD sm).isSome = true := by
  obtain ⟨v, hv⟩ := Option.isSome_iff_exists.mp h
  unfold doubleRow1
  simp [hv]

lemma doubleRow2_isSome (pureD : List (ℕ × ℕ)) (sm : Finset ℕ × ℕ)
    (h : (dictLookup pureD (fsetSnd sm.1)).isSome = true) :
    (doubleRow2 pureD sm).isSome = true := by
  obtain ⟨v, hv⟩ := Option.isSome_iff_exists.mp h
  unfold doubleRow2
  simp [hv]

lemma tripleRow_isSome (mixedD : List (Finset ℕ × ℕ)) (ijk : ℕ × ℕ × ℕ)
    (h1 : (dictLookup mixedD {ijk.2.1, ijk.2.2}).isSome = true)
    (h2 : (dictLookup mixedD {ijk.2.2, ijk.1}).isSome = true)
    (h3 : (dictLookup mixedD {ijk.1, ijk.2.1}).isSome = true) :
    (tripleRow mixedD ijk).isSome = true := by
  obtain ⟨v1, hv1⟩ := Option.isSome_iff_exists.mp h1
  obtain ⟨v2, hv2⟩ := Option.isSome_iff_exists.mp h2
  obtain ⟨v3, hv3⟩ := Option.isSome_iff_exists.mp h3
  unfold tripleRow
  simp [hv1, hv2, hv3]

lemma doubleConstraints_len (pureD : List (ℕ × ℕ)) (items : List (Finset ℕ × ℕ))
    (h1 : ∀ sm ∈ items, (doubleRow1 pureD sm).isSome = true)
    (h2 : ∀ sm ∈ items, (doubleRow2 pureD sm).isSome = true) :
    ∃ db, doubleConstraints pureD items = some db ∧ db.length = 2 * items.length := by
  obtain ⟨m1, hm1, l1⟩ := mapMO_isSome (doubleRow1 pureD) items h1
  obtain ⟨m2, hm2, l2⟩ := mapMO_isSome (doubleRow2 pureD) items h2
  refine ⟨m1 ++ m2, ?_, by simp [l1, l2]; ring⟩
  unfold doubleConstraints
  rw [hm1, hm2]
  rfl

lemma tripleConstraints_len (r : ℕ) (mixedD : List (Finset ℕ × ℕ))
    (h : ∀ ijk ∈ triples r, (tripleRow mixedD ijk).isSome = true) :
    ∃ tb, tripleConstraints r mixedD = some tb ∧ tb.length = r.choose 3 := by
  obtain ⟨tb, htb, hl⟩ := mapMO_isSome (tripleRow mixedD) (triples r) h
  exact ⟨tb, htb, by rw [hl, length_triples]⟩

/-- C2: for every `r ≥ 2` and either bias setting, `_make_constraints`
returns a homogeneous system: the right-hand side is the all-zero
vector of length `r + 2·C(r,2) + C(r,3)`, and the constraint matrix is
the stack of `r` pure-cube rows, then `2·C(r,2)` double rows, then
`C(r,3)` triple rows — with the triple block empty when `r = 2`. -/
theorem make_constraints_rows (r : ℕ) (b : Bool) (hr : 2 ≤ r) :
    ∃ db tb,
      doubleConstraints (dictOfList (pureEntriesOf (polytermsOf r b)))
          (dictOfList (mixedEntriesOf (polytermsOf r b))) = some db ∧
      tripleConstraints r (dictOfList (mixedEntriesOf (polytermsOf r b))) = some tb ∧
      makeConstraints r b = some
        (List.replicate (r + 2 * r.choose 2 + r.choose 3) 0,
         pureConstraints r (dictOfList (pureEntriesOf (polytermsOf r b))) ++ db ++ tb) ∧
      (pureConstraints r (dictOfList (pureEntriesOf (polytermsOf r b)))).length = r ∧
      db.length = 2 * r.choose 2 ∧ tb.length = r.choose 3 ∧
      (r = 2 → tb = []) := by
  have hmD : dictOfList (mixedEntriesOf (polytermsOf r b))
      = mixedEntriesOf (polytermsOf r b) :=
    dictOfList_eq_self _ (mixed_keys_nodup r b)
  have hA : ∀ sm ∈ dictOfList (mixedEntriesOf (polytermsOf r b)),
      (doubleRow1 (dictOfList (pureEntriesOf (polytermsOf r b))) sm).isSome = true := by
    intro sm hsm
    rw [hmD] at hsm
    obtain ⟨j, k, hjk, hkr, hs⟩ := mixed_item_shape r b sm hsm
    apply doubleRow1_isSome
    rw [hs, fsetFst_pair hjk]
    exact pureLookup_total r b j (by omega)
  have hB : ∀ sm ∈ dictOfList (mixedEntriesOf (polytermsOf r b)),
      (doubleRow2 (dictOfList (pureEntriesOf (polytermsOf r b))) sm).isSome = true := by
    intro sm hsm
    rw [hmD] at hsm
    obtain ⟨j, k, hjk, hkr, hs⟩ := mixed_item_shape r b sm hsm
    apply doubleRow2_isSome
    rw [hs, fsetSnd_pair hjk]
    exact pureLookup_total r b k hkr
  obtain ⟨db, hdb1, hdbLen⟩ := doubleConstraints_len
    (dictOfList (pureEntriesOf (polytermsOf r b)))
    (dictOfList (mixedEntriesOf (polytermsOf r b))) hA hB
  have hdb2 : db.length = 2 * r.choose 2 := by
    rw [hdbLen, hmD, length_mixed_entries]
  have hC : ∀ ijk ∈ triples r,
      (tripleRow (dictOfList (mixedEntriesOf (polytermsOf r b))) ijk).isSome = true := by
    intro ijk hijk
    obtain ⟨h1, h2, h3⟩ := mem_triples r ijk hijk
    apply tripleRow_isSome
    · exact mixedLookup_total r b ijk.2.1 ijk.2.2 (by omega) (by omega) (by omega)
    · exact mixedLookup_total r b ijk.2.2 ijk.1 (by omega) (by omega) (by omega)
    · exact mixedLookup_total r b ijk.1 ijk.2.1 (by omega) (by omega) (by omega)
  have htb := tripleConstraints_len r (dictOfList (mixedEntriesOf (polytermsOf r b))) hC
  obtain ⟨tb, htb1, htb2⟩ := htb
  have hpc : (pureConstraints r
      (dictOfList (pureEntriesOf (polytermsOf r b)))).length = r := by
    simp [pureConstraints]
  have hmat : (pureConstraints r (dictOfList (pureEntriesOf (polytermsOf r b)))
      ++ db ++ tb).length = r + 2 * r.choose 2 + r.choose 3 := by
    rw [List.length_append, List.length_append, hpc, hdb2, htb2]
  refine ⟨db, tb, hdb1, htb1, ?_, hpc, hdb2, htb2, ?_⟩
  · unfold makeConstraints
    rw [hdb1, htb1]
    show some _ = some _
    rw [hmat]
  · intro h2
    subst h2
    have : tb.length = 0 := by
      rw [htb2]
      decide
    exact List.eq_nil_of_length_eq_zero this

/-- Witness for C2: the instantiation at `r = 2` without bias. -/
theorem make_constraints_rows_witness :
    ∃ db tb,
      doubleConstraints (dictOfList (pureEntriesOf (polytermsOf 2 false)))
          (dictOfList (mixedEntriesOf (polytermsOf 2 false))) = some db ∧
      tripleConstraints 2 (dictOfList (mixedEntriesOf (polytermsOf 2 false))) = some tb ∧
      makeConstraints 2 false = some
        (List.replicate (2 + 2 * Nat.choose 2 2 + Nat.choose 2 3) 0,
         pureConstraints 2 (dictOfList (pureEntriesOf (polytermsOf 2 false))) ++ db ++ tb) ∧
      (pureConstraints 2 (dictOfList (pureEntriesOf (polytermsOf 2 false)))).length = 2 ∧
      db.length = 2 * Nat.choose 2 2 ∧ tb.length = Nat.choose 2 3 ∧
      (2 = 2 → tb = []) :=
  make_constraints_rows 2 false (by norm_num)

end ConstraintLemmas

section DriverLemmas

lemma runLoop_zero {r p : ℕ} (prm : DriverParams r p) (k : ℕ) (st : RState r p) :
    runLoop prm 0 k st = (st, ExitKind.maxIterHit) := rfl

lemma runLoop_succ_inl {r p : ℕ} {prm : DriverParams r p} {n k : ℕ}
    {st st1 : RState r p} (h : iterateOnce prm k st = Sum.inl st1) :
    runLoop prm (n + 1) k st = runLoop prm n (k + 1) st1 := by
  conv_lhs => rw [runLoop]
  rw [h]

lemma runLoop_succ_inr {r p : ℕ} {prm : DriverParams r p} {n k : ℕ}
    {st : RState r p} {res : RState r p × ExitKind}
    (h : iterateOnce prm k st = Sum.inr res) :
    runLoop prm (n + 1) k st = res := by
  conv_lhs => rw [runLoop]
  rw [h]

/-- Appending one trap center makes `_m_convergence_criterion` compare
it with the previous last entry. -/
lemma mCrit_append (r : ℕ) (l : List VecR) (x : VecR) :
    mConvergenceCriterion r (l ++ [x]) =
      ∑ i ∈ Finset.range r, |l.getLastD (fun _ => 0) i - x i| := by
  unfold mConvergenceCriterion
  rw [List.dropLast_concat, List.getLastD_concat]

/-- Appending one coefficient iterate to a nonempty history makes
`_convergence_criterion` compare it with the previous last entry. -/
lemma convCrit_append (r p : ℕ) (l : List MatR) (x : MatR) (hl : l ≠ []) :
    convergenceCriterion r p (l ++ [x]) =
      Real.sqrt (∑ i ∈ Finset.range r, ∑ j ∈ Finset.range p,
        (x i j - l.getLastD (fun _ _ => 0) i j) ^ 2) := by
  unfold convergenceCriterion
  have h2 : 1 < (l ++ [x]).length := by
    rw [List.length_append, List.length_singleton]
    have := List.length_pos.mpr hl
    omega
  rw [List.getLastD_concat, if_pos h2, List.dropLast_concat]

lemma mCrit_nonneg (r : ℕ) (l : List VecR) : 0 ≤ mConvergenceCriterion r l :=
  Finset.sum_nonneg fun _ _ => abs_nonneg _

/-- Inverting a "continue" result of the loop body: the new state is a
fully-appended `postIter`. -/
lemma iterateOnce_inl {r p : ℕ} {prm : DriverParams r p} {k : ℕ}
    {st st1 : RState r p} (h : iterateOnce prm k st = Sum.inl st1) :
    ∃ c mNew Anew, st1 = postIter prm k st c mNew Anew := by
  unfold iterateOnce at h
  split at h
  · exact absurd h (by simp)
  · split at h
    · exact absurd h (by simp)
    · split at h
      · exact absurd h (by simp)
      · injection h with h1
        exact ⟨_, _, _, h1.symm⟩

/-- Inverting a convergence exit: the final state is a fully-appended
`postIter`. -/
lemma iterateOnce_inr_converged {r p : ℕ} {prm : DriverParams r p} {k : ℕ}
    {st st1 : RState r p}
    (h : iterateOnce prm k st = Sum.inr (st1, ExitKind.converged)) :
    ∃ c mNew Anew, st1 = postIter prm k st c mNew Anew := by
  unfold iterateOnce at h
  split at h
  · simp at h
  · split at h
    · simp at h
    · split at h
      · injection h with h1
        injection h1 with h2 h3
        exact ⟨_, _, _, h2.symm⟩
      · simp at h

/-- The loop body itself never reports `maxIterHit`; that exit comes
only from the `for`–`else`. -/
lemma iterateOnce_not_maxIter {r p : ℕ} (prm : DriverParams r p) (k : ℕ)
    (st st1 : RState r p) :
    iterateOnce prm k st ≠ Sum.inr (st1, ExitKind.maxIterHit) := by
  unfold iterateOnce
  split
  · intro h
    simp at h
  · split
    · intro h
      simp at h
    · split
      · intro h
        simp at h
      · intro h
        simp at h

/-- A completed iteration appends exactly one entry to every buffer,
so it preserves the seeded length offsets. -/
lemma postIter_balanced {r p : ℕ} (prm : DriverParams r p) (k : ℕ)
    (st : RState r p) (c : MatR) (mNew : VecR) (Anew : MatR)
    (h : HistBalanced st) : HistBalanced (postIter prm k st c mNew Anew) := by
  obtain ⟨h1, h2, h3, h4, h5, h6⟩ := h
  refine ⟨?_, ?_, ?_, ?_, ?_, ?_⟩ <;>
    simp only [postIter, List.length_append, List.length_singleton] <;> omega

/-- C4: an iteration of the loop body that completes its two updates
exits with `converged` exactly when both criteria hold on the newly
appended iterates — the L1 norm of the difference of the last two trap
centers is below `tol_m` and the L2 norm of the difference of the last
two coefficient iterates is below `tol` — and continues (returning the
appended state to the next iteration) whenever at least one fails. -/
theorem convergence_exit_iff {r p : ℕ} (prm : DriverParams r p) (k : ℕ)
    (st : RState r p) (c : MatR) (mNew : VecR) (Anew : MatR)
    (hc : prm.updateCoef st.trapCtr st.A st.coef (PAcur prm st) = some c)
    (hm : prm.solveM st.trapCtr st.A c = (some mNew, Anew))
    (hne : st.histCoef ≠ []) :
    (iterateOnce prm k st =
        Sum.inr (postIter prm k st c mNew Anew, ExitKind.converged) ↔
      (∑ i ∈ Finset.range r, |st.histM.getLastD (fun _ => 0) i - mNew i|) <
          prm.tol_m ∧
      Real.sqrt (∑ i ∈ Finset.range r, ∑ j ∈ Finset.range p,
          (c j i - st.histCoef.getLastD (fun _ _ => 0) i j) ^ 2) < prm.tol) ∧
    (¬ ((∑ i ∈ Finset.range r, |st.histM.getLastD (fun _ => 0) i - mNew i|) <
          prm.tol_m ∧
        Real.sqrt (∑ i ∈ Finset.range r, ∑ j ∈ Finset.range p,
          (c j i - st.histCoef.getLastD (fun _ _ => 0) i j) ^ 2) < prm.tol) →
      iterateOnce prm k st = Sum.inl (postIter prm k st c mNew Anew)) := by
  have hmc : mConvergenceCriterion r (postIter prm k st c mNew Anew).histM =
      ∑ i ∈ Finset.range r, |st.histM.getLastD (fun _ => 0) i - mNew i| := by
    simp only [postIter]
    exact mCrit_append r st.histM mNew
  have hcc : convergenceCriterion r p (postIter prm k st c mNew Anew).histCoef =
      Real.sqrt (∑ i ∈ Finset.range r, ∑ j ∈ Finset.range p,
        (c j i - st.histCoef.getLastD (fun _ _ => 0) i j) ^ 2) := by
    simp only [postIter]
    exact convCrit_append r p st.histCoef (fun i j => c j i) hne
  have hif : iterateOnce prm k st =
      (if mConvergenceCriterion r (postIter prm k st c mNew Anew).histM <
            prm.tol_m ∧
          convergenceCriterion r p (postIter prm k st c mNew Anew).histCoef <
            prm.tol then
        Sum.inr (postIter prm k st c mNew Anew, ExitKind.converged)
      else Sum.inl (postIter prm k st c mNew Anew)) := by
    unfold iterateOnce
    rw [hc]
    show (match prm.solveM st.trapCtr st.A c with
          | (none, Anew) =>
              Sum.inr ({ st with
                          histP := st.histP ++ [PAcur prm st]
                          coef := c
                          A := Anew
                          trapCtr := st.trapPrevCtr }, ExitKind.infeasM)
          | (some mNew, Anew) =>
              if mConvergenceCriterion r (postIter prm k st c mNew Anew).histM <
                    prm.tol_m ∧
                  convergenceCriterion r p
                      (postIter prm k st c mNew Anew).histCoef < prm.tol then
                Sum.inr (postIter prm k st c mNew Anew, ExitKind.converged)
              else Sum.inl (postIter prm k st c mNew Anew)) = _
    rw [hm]
  rw [hmc, hcc] at hif
  rw [hif]
  split_ifs with h
  · exact ⟨iff_of_true rfl h, fun hcon => absurd h hcon⟩
  · exact ⟨iff_of_false (by simp) h, fun _ => rfl⟩

/-- Witness for C4: the loop body of `exPrmStep` at the mid-loop state
with one recorded coefficient iterate. -/
theorem convergence_exit_iff_witness :
    (iterateOnce exPrmStep 0 exStMid =
        Sum.inr (postIter exPrmStep 0 exStMid exStMid.coef
            (fun i => exStMid.trapCtr i + 1) exStMid.A, ExitKind.converged) ↔
      (∑ i ∈ Finset.range 1,
          |exStMid.histM.getLastD (fun _ => 0) i -
            (exStMid.trapCtr i + 1)|) < exPrmStep.tol_m ∧
      Real.sqrt (∑ i ∈ Finset.range 1, ∑ j ∈ Finset.range 1,
          (exStMid.coef j i -
            exStMid.histCoef.getLastD (fun _ _ => 0) i j) ^ 2) <
        exPrmStep.tol) ∧
    (¬ ((∑ i ∈ Finset.range 1,
          |exStMid.histM.getLastD (fun _ => 0) i -
            (exStMid.trapCtr i + 1)|) < exPrmStep.tol_m ∧
        Real.sqrt (∑ i ∈ Finset.range 1, ∑ j ∈ Finset.range 1,
          (exStMid.coef j i -
            exStMid.histCoef.getLastD (fun _ _ => 0) i j) ^ 2) <
          exPrmStep.tol) →
      iterateOnce exPrmStep 0 exStMid =
        Sum.inl (postIter exPrmStep 0 exStMid exStMid.coef
          (fun i => exStMid.trapCtr i + 1) exStMid.A)) :=
  convergence_exit_iff exPrmStep 0 exStMid exStMid.coef
    (fun i => exStMid.trapCtr i + 1) exStMid.A rfl rfl
    (List.cons_ne_nil _ _)

/-- C5 (amended): when a sub-solver signals infeasibility by returning
`None`, the loop breaks immediately and the fit still returns
coefficients. On a coefficient-update failure the coefficients revert
to the previous iterate (`coef_sparse = coef_prev`); on a trap-center
failure the accepted coefficients are kept, `A` keeps its already
updated value, and the trap center reverts to `trap_prev_ctr` — the
value saved once *before the loop started*, not the value held
immediately before the failing update. In neither case is the
`ConvergenceWarning` emitted: the `for`–`else` fires only when the
loop is never broken. -/
theorem infeasible_exit {r p : ℕ} (prm : DriverParams r p) (n k : ℕ)
    (st : RState r p) :
    (prm.updateCoef st.trapCtr st.A st.coef (PAcur prm st) = none →
      runLoop prm (n + 1) k st =
        ({ st with histP := st.histP ++ [PAcur prm st] },
         ExitKind.infeasCoef) ∧
      warnsConvergence ExitKind.infeasCoef = false) ∧
    (∀ c Anew, prm.updateCoef st.trapCtr st.A st.coef (PAcur prm st) = some c →
      prm.solveM st.trapCtr st.A c = (none, Anew) →
      runLoop prm (n + 1) k st =
        ({ st with
            histP := st.histP ++ [PAcur prm st]
            coef := c
            A := Anew
            trapCtr := st.trapPrevCtr }, ExitKind.infeasM) ∧
      warnsConvergence ExitKind.infeasM = false) := by
  constructor
  · intro h
    refine ⟨?_, rfl⟩
    have hio : iterateOnce prm k st =
        Sum.inr ({ st with histP := st.histP ++ [PAcur prm st] },
                 ExitKind.infeasCoef) := by
      unfold iterateOnce
      rw [h]
    exact runLoop_succ_inr hio
  · intro c Anew h1 h2
    refine ⟨?_, rfl⟩
    have hio : iterateOnce prm k st =
        Sum.inr ({ st with
                    histP := st.histP ++ [PAcur prm st]
                    coef := c
                    A := Anew
                    trapCtr := st.trapPrevCtr }, ExitKind.infeasM) := by
      unfold iterateOnce
      rw [h1]
      show (match prm.solveM st.trapCtr st.A c with
            | (none, Anew) =>
                Sum.inr ({ st with
                            histP := st.histP ++ [PAcur prm st]
                            coef := c
                            A := Anew
                            trapCtr := st.trapPrevCtr }, ExitKind.infeasM)
            | (some mNew, Anew) =>
                if mConvergenceCriterion r
                      (postIter prm k st c mNew Anew).histM < prm.tol_m ∧
                    convergenceCriterion r p
                      (postIter prm k st c mNew Anew).histCoef < prm.tol then
                  Sum.inr (postIter prm k st c mNew Anew, ExitKind.converged)
                else Sum.inl (postIter prm k st c mNew Anew)) = _
      rw [h2]
    exact runLoop_succ_inr hio

/-- Witness for C5: a run whose coefficient update is infeasible on
the first iteration exits with the previous coefficients and without
the warning. -/
theorem infeasible_exit_witness :
    runLoop exPrmNone 1 0 exStInit =
      ({ exStInit with histP := exStInit.histP ++ [PAcur exPrmNone exStInit] },
       ExitKind.infeasCoef) ∧
    warnsConvergence ExitKind.infeasCoef = false :=
  (infeasible_exit exPrmNone 0 0 exStInit).1 rfl

/-- Counterexample to C5 as stated: a full fit whose first coefficient
update is infeasible terminates early with usable state, yet
`warnsConvergence` is `false` — no non-fatal warning is emitted on the
infeasibility path, contrary to the claim. -/
theorem infeasible_no_warning_counterexample :
    (reduceRun exPrmNone (fun _ _ => 0) (fun _ => 0) (fun _ _ => 0)).2 =
      ExitKind.infeasCoef ∧
    warnsConvergence
      (reduceRun exPrmNone (fun _ _ => 0) (fun _ => 0) (fun _ _ => 0)).2 =
      false := by
  have key : reduceRun exPrmNone (fun _ _ => 0) (fun _ => 0) (fun _ _ => 0) =
      ({ exStInit with
          histP := exStInit.histP ++ [PAcur exPrmNone exStInit] },
       ExitKind.infeasCoef) := by
    show runLoop exPrmNone (0 + 1) 0 exStInit = _
    exact runLoop_succ_inr (by unfold iterateOnce; rfl)
  rw [key]
  exact ⟨rfl, rfl⟩

/-- C6: a fit with `max_iter = 1` whose single iteration completes
both updates but fails the convergence test runs the loop to
exhaustion, emits the `ConvergenceWarning` (the `for`–`else` fires),
and still sets `coef_` to the transpose of the last computed
coefficient matrix. -/
theorem max_iter_warns {r p : ℕ} (prm : DriverParams r p)
    (A0 coef0 : MatR) (m0 : VecR) (st0 : RState r p)
    (c : MatR) (mNew : VecR) (Anew : MatR)
    (hmax : prm.maxIter = 1)
    (hst : initState A0 m0 coef0 = st0)
    (hc : prm.updateCoef st0.trapCtr st0.A st0.coef (PAcur prm st0) = some c)
    (hm : prm.solveM st0.trapCtr st0.A c = (some mNew, Anew))
    (hnc : ¬ (mConvergenceCriterion r (postIter prm 0 st0 c mNew Anew).histM <
            prm.tol_m ∧
          convergenceCriterion r p (postIter prm 0 st0 c mNew Anew).histCoef <
            prm.tol)) :
    reduceRun prm A0 m0 coef0 =
      (postIter prm 0 st0 c mNew Anew, ExitKind.maxIterHit) ∧
    warnsConvergence (reduceRun prm A0 m0 coef0).2 = true ∧
    finalCoef (reduceRun prm A0 m0 coef0) = fun i j => c j i := by
  have hif : iterateOnce prm 0 st0 =
      (if mConvergenceCriterion r (postIter prm 0 st0 c mNew Anew).histM <
            prm.tol_m ∧
          convergenceCriterion r p (postIter prm 0 st0 c mNew Anew).histCoef <
            prm.tol then
        Sum.inr (postIter prm 0 st0 c mNew Anew, ExitKind.converged)
      else Sum.inl (postIter prm 0 st0 c mNew Anew)) := by
    unfold iterateOnce
    rw [hc]
    show (match prm.solveM st0.trapCtr st0.A c with
          | (none, Anew) =>
              Sum.inr ({ st0 with
                          histP := st0.histP ++ [PAcur prm st0]
                          coef := c
                          A := Anew
                          trapCtr := st0.trapPrevCtr }, ExitKind.infeasM)
          | (some mNew, Anew) =>
              if mConvergenceCriterion r
                    (postIter prm 0 st0 c mNew Anew).histM < prm.tol_m ∧
                  convergenceCriterion r p
                    (postIter prm 0 st0 c mNew Anew).histCoef < prm.tol then
                Sum.inr (postIter prm 0 st0 c mNew Anew, ExitKind.converged)
              else Sum.inl (postIter prm 0 st0 c mNew Anew)) = _
    rw [hm]
  have hio : iterateOnce prm 0 st0 =
      Sum.inl (postIter prm 0 st0 c mNew Anew) := by
    rw [hif, if_neg hnc]
  have h1 : reduceRun prm A0 m0 coef0 =
      (postIter prm 0 st0 c mNew Anew, ExitKind.maxIterHit) := by
    unfold reduceRun
    rw [hmax, hst, show (1 : ℕ) = 0 + 1 from rfl, runLoop_succ_inl hio,
      runLoop_zero]
  refine ⟨h1, ?_, ?_⟩
  · rw [h1]
    rfl
  · rw [h1]
    rfl

/-- Witness for C6: the one-iteration fit of `exPrmStep`, whose
trap-center step of size `1` can never pass the zero tolerance. -/
theorem max_iter_warns_witness :
    reduceRun exPrmStep (fun _ _ => 0) (fun _ => 0) (fun _ _ => 0) =
      (postIter exPrmStep 0 exStInit exStInit.coef
        (fun i => exStInit.trapCtr i + 1) exStInit.A, ExitKind.maxIterHit) ∧
    warnsConvergence
      (reduceRun exPrmStep (fun _ _ => 0) (fun _ => 0) (fun _ _ => 0)).2 =
      true ∧
    finalCoef (reduceRun exPrmStep (fun _ _ => 0) (fun _ => 0) (fun _ _ => 0)) =
      fun i j => exStInit.coef j i :=
  max_iter_warns exPrmStep (fun _ _ => 0) (fun _ _ => 0) (fun _ => 0) exStInit
    exStInit.coef (fun i => exStInit.trapCtr i + 1) exStInit.A rfl rfl rfl rfl
    (fun h => absurd h.1 (not_lt.mpr (mCrit_nonneg 1 _)))

/-- On every run that ends by convergence or iteration exhaustion, the
buffers are append-only and each completed iteration adds exactly one
entry to every buffer, so the seeded length offsets are preserved. -/
lemma runLoop_growth {r p : ℕ} (prm : DriverParams r p) :
    ∀ (n k : ℕ) (st st' : RState r p) (res : ExitKind),
      runLoop prm n k st = (st', res) →
      (res = ExitKind.converged ∨ res = ExitKind.maxIterHit) →
      (HistBalanced st → HistBalanced st') ∧
      st.histCoef <+: st'.histCoef ∧ st.histM <+: st'.histM ∧
      st.histA <+: st'.histA ∧ st.histP <+: st'.histP ∧
      st.histPW <+: st'.histPW ∧ st.histPWeigs <+: st'.histPWeigs ∧
      st.objHist <+: st'.objHist := by
  intro n
  induction n with
  | zero =>
    intro k st st' res h _
    rw [runLoop_zero] at h
    injection h with h1 h2
    subst h1
    exact ⟨fun hb => hb, List.prefix_refl _, List.prefix_refl _,
      List.prefix_refl _, List.prefix_refl _, List.prefix_refl _,
      List.prefix_refl _, List.prefix_refl _⟩
  | succ n ih =>
    intro k st st' res h hres
    rcases hio : iterateOnce prm k st with st1 | pr
    · rw [runLoop_succ_inl hio] at h
      obtain ⟨c, mNew, Anew, rfl⟩ := iterateOnce_inl hio
      obtain ⟨hb, p1, p2, p3, p4, p5, p6, p7⟩ := ih (k + 1) _ st' res h hres
      exact ⟨fun hbal => hb (postIter_balanced prm k st c mNew Anew hbal),
        (List.prefix_append _ _).trans p1, (List.prefix_append _ _).trans p2,
        (List.prefix_append _ _).trans p3, (List.prefix_append _ _).trans p4,
        (List.prefix_append _ _).trans p5, (List.prefix_append _ _).trans p6,
        (List.prefix_append _ _).trans p7⟩
    · rw [runLoop_succ_inr hio] at h
      obtain ⟨stE, resE⟩ := pr
      injection h with h1 h2
      subst h1
      subst h2
      rcases hres with rfl | rfl
      · obtain ⟨c, mNew, Anew, rfl⟩ := iterateOnce_inr_converged hio
        exact ⟨fun hbal => postIter_balanced prm k st c mNew Anew hbal,
          List.prefix_append _ _, List.prefix_append _ _,
          List.prefix_append _ _, List.prefix_append _ _,
          List.prefix_append _ _, List.prefix_append _ _,
          List.prefix_append _ _⟩
      · exact absurd hio (iterateOnce_not_maxIter prm k st stE)

/-- C9 (amended): on a fit that ends by convergence or by exhausting
`max_iter`, every buffer is append-only with exactly one entry per
completed iteration, and the seed entries `m0` and `A0` stay in place;
hence the per-iteration buffers (`history_`, `p_history_`,
`PW_history_`, `PWeigs_history_`, `objective_history`) all share one
length `K` (the number of completed iterations) while `m_history_` and
`A_history_` have length `K + 1` because of their pre-loop seed
entries — not all buffers end up the same length, contrary to the
claim as stated. -/
theorem reduce_history_lengths {r p : ℕ} (prm : DriverParams r p)
    (A0 coef0 : MatR) (m0 : VecR) (st' : RState r p) (res : ExitKind)
    (h : reduceRun prm A0 m0 coef0 = (st', res))
    (hres : res = ExitKind.converged ∨ res = ExitKind.maxIterHit) :
    [m0] <+: st'.histM ∧ [A0] <+: st'.histA ∧
    st'.histM.length = st'.histCoef.length + 1 ∧
    st'.histA.length = st'.histCoef.length + 1 ∧
    st'.histPW.length = st'.histCoef.length ∧
    st'.histPWeigs.length = st'.histCoef.length ∧
    st'.histP.length = st'.histCoef.length ∧
    st'.objHist.length = st'.histCoef.length := by
  obtain ⟨hb, _, p2, p3, _, _, _, _⟩ :=
    runLoop_growth prm prm.maxIter 0 (initState A0 m0 coef0) st' res h hres
  have h0 : HistBalanced (initState A0 m0 coef0 : RState r p) :=
    ⟨rfl, rfl, rfl, rfl, rfl, rfl⟩
  obtain ⟨b1, b2, b3, b4, b5, b6⟩ := hb h0
  exact ⟨p2, p3, b1, b2, b3, b4, b5, b6⟩

/-- The single completed iteration of `exPrmStep` continues to the next
round (the zero tolerances can never be met). -/
lemma exStep_hio :
    iterateOnce exPrmStep 0 exStInit =
      Sum.inl (postIter exPrmStep 0 exStInit exStInit.coef
        (fun i => exStInit.trapCtr i + 1) exStInit.A) := by
  have h1 : iterateOnce exPrmStep 0 exStInit =
      (if mConvergenceCriterion 1
            (postIter exPrmStep 0 exStInit exStInit.coef
              (fun i => exStInit.trapCtr i + 1) exStInit.A).histM <
            exPrmStep.tol_m ∧
          convergenceCriterion 1 1
            (postIter exPrmStep 0 exStInit exStInit.coef
              (fun i => exStInit.trapCtr i + 1) exStInit.A).histCoef <
            exPrmStep.tol then
        Sum.inr (postIter exPrmStep 0 exStInit exStInit.coef
          (fun i => exStInit.trapCtr i + 1) exStInit.A, ExitKind.converged)
      else Sum.inl (postIter exPrmStep 0 exStInit exStInit.coef
        (fun i => exStInit.trapCtr i + 1) exStInit.A)) := rfl
  rw [h1, if_neg fun h => absurd h.1 (not_lt.mpr (mCrit_nonneg 1 _))]

/-- The full one-iteration fit of `exPrmStep` ends by exhaustion with
the appended state. -/
lemma exStep_run :
    reduceRun exPrmStep (fun _ _ => 0) (fun _ => 0) (fun _ _ => 0) =
      (postIter exPrmStep 0 exStInit exStInit.coef
        (fun i => exStInit.trapCtr i + 1) exStInit.A, ExitKind.maxIterHit) := by
  show runLoop exPrmStep (0 + 1) 0 exStInit = _
  rw [runLoop_succ_inl exStep_hio, runLoop_zero]

/-- Witness for C9: the one-iteration fit of `exPrmStep`. -/
theorem reduce_history_lengths_witness :
    [fun _ => (0 : ℝ)] <+:
      (postIter exPrmStep 0 exStInit exStInit.coef
        (fun i => exStInit.trapCtr i + 1) exStInit.A).histM ∧
    [fun _ _ => (0 : ℝ)] <+:
      (postIter exPrmStep 0 exStInit exStInit.coef
        (fun i => exStInit.trapCtr i + 1) exStInit.A).histA ∧
    (postIter exPrmStep 0 exStInit exStInit.coef
        (fun i => exStInit.trapCtr i + 1) exStInit.A).histM.length =
      (postIter exPrmStep 0 exStInit exStInit.coef
        (fun i => exStInit.trapCtr i + 1) exStInit.A).histCoef.length + 1 ∧
    (postIter exPrmStep 0 exStInit exStInit.coef
        (fun i => exStInit.trapCtr i + 1) exStInit.A).histA.length =
      (postIter exPrmStep 0 exStInit exStInit.coef
        (fun i => exStInit.trapCtr i + 1) exStInit.A).histCoef.length + 1 ∧
    (postIter exPrmStep 0 exStInit exStInit.coef
        (fun i => exStInit.trapCtr i + 1) exStInit.A).histPW.length =
      (postIter exPrmStep 0 exStInit exStInit.coef
        (fun i => exStInit.trapCtr i + 1) exStInit.A).histCoef.length ∧
    (postIter exPrmStep 0 exStInit exStInit.coef
        (fun i => exStInit.trapCtr i + 1) exStInit.A).histPWeigs.length =
      (postIter exPrmStep 0 exStInit exStInit.coef
        (fun i => exStInit.trapCtr i + 1) exStInit.A).histCoef.length ∧
    (postIter exPrmStep 0 exStInit exStInit.coef
        (fun i => exStInit.trapCtr i + 1) exStInit.A).histP.length =
      (postIter exPrmStep 0 exStInit exStInit.coef
        (fun i => exStInit.trapCtr i + 1) exStInit.A).histCoef.length ∧
    (postIter exPrmStep 0 exStInit exStInit.coef
        (fun i => exStInit.trapCtr i + 1) exStInit.A).objHist.length =
      (postIter exPrmStep 0 exStInit exStInit.coef
        (fun i => exStInit.trapCtr i + 1) exStInit.A).histCoef.length :=
  reduce_history_lengths exPrmStep (fun _ _ => 0) (fun _ _ => 0) (fun _ => 0)
    (postIter exPrmStep 0 exStInit exStInit.coef
      (fun i => exStInit.trapCtr i + 1) exStInit.A) ExitKind.maxIterHit
    exStep_run (Or.inr rfl)

/-- Counterexample to C9 as stated: after a fit with one completed
iteration, `m_history_` has two entries (the pre-loop seed plus the
iteration's append) while the coefficient history has one, so the
buffers do not all have the same length. -/
theorem history_lengths_counterexample :
    (reduceRun exPrmStep (fun _ _ => 0) (fun _ => 0)
        (fun _ _ => 0)).1.histM.length = 2 ∧
    (reduceRun exPrmStep (fun _ _ => 0) (fun _ => 0)
        (fun _ _ => 0)).1.histCoef.length = 1 ∧
    (2 : ℕ) ≠ 1 := by
  rw [exStep_run]
  exact ⟨rfl, rfl, by decide⟩

end DriverLemmas

end TrappingSR3
